import Mathlib

/-!
Verification of the pathfinding repository (src/algo.rs, src/grid.rs).

The Rust source is shallowly embedded: machine integers i32 become `Int`
(with the explicit `as usize` / `as i32` casts modelled by `usizeCast` /
`i32Cast`), `HashMap`/`HashSet` become function maps and duplicate-free
lists observed only through membership and lookup, `BinaryHeap` becomes a
list popped at its lexicographic maximum (Rust's `BinaryHeap` is a
max-heap and `(i32, (i32, i32))` orders lexicographically), and the
`while` loop of `astar` gets an explicit fuel parameter.  `astar` returns
`none` when the fuel runs out (which provably cannot happen on well-formed
inputs), `some none` for the Rust `None` (open set exhausted) and
`some (some path)` for `Some(path)`.
-/

/-- A grid position, Rust `(i32, i32)` (row, column). -/
abbrev Pos := Int × Int

/-- The nested-vector grid `Vec<Vec<i32>>` handed to the search engine. -/
abbrev GridV := List (List Int)

/-- Rust `x as usize` on an `i32` value (sign-extending two's-complement wrap). -/
def usizeCast (i : Int) : Nat := (i % (2 : Int) ^ 64).toNat

/-- Rust `n as i32` on a `usize` value (two's-complement wrap into `i32`). -/
def i32Cast (n : Nat) : Int := ((n : Int) + 2 ^ 31) % 2 ^ 32 - 2 ^ 31

/-- Rust `manhattan_distance` from src/algo.rs: `(a.0-b.0).abs() + (a.1-b.1).abs()`. -/
def manhattan_distance (a b : Pos) : Int :=
  ((a.1 - b.1).natAbs : Int) + ((a.2 - b.2).natAbs : Int)

/-- Rust `diagonal_distance` from src/algo.rs: `(a.0-b.0).abs().max((a.1-b.1).abs())`. -/
def diagonal_distance (a b : Pos) : Int :=
  max ((a.1 - b.1).natAbs : Int) ((a.2 - b.2).natAbs : Int)

/-- Rust `get_neighbors` from src/algo.rs: the four direction branches in
source order up, left, down, right, each guarded by its bounds check and
the solidity predicate. -/
def get_neighbors (row col : Int) (grid : GridV)
    (is_solid : Nat → Nat → GridV → Bool) : List Pos :=
  (if 0 < row ∧ is_solid (usizeCast row - 1) (usizeCast col) grid = false
    then [(row - 1, col)] else []) ++
  (if 0 < col ∧ is_solid (usizeCast row) (usizeCast col - 1) grid = false
    then [(row, col - 1)] else []) ++
  (if row < i32Cast grid.length - 1 ∧
      is_solid (usizeCast row + 1) (usizeCast col) grid = false
    then [(row + 1, col)] else []) ++
  (if col < i32Cast (grid.headD []).length - 1 ∧
      is_solid (usizeCast row) (usizeCast col + 1) grid = false
    then [(row, col + 1)] else [])

/-- The loop body of Rust `reconstruct_path`: while `came_from` has an entry
for `current`, step to it and record it; then reverse.  The fuel bounds the
number of chain steps (the Rust loop has no bound; every use below supplies
provably sufficient fuel). -/
def reconstructAux (came_from : Pos → Option Pos) : Nat → Pos → List Pos → List Pos
  | 0, _, acc => acc.reverse
  | fuel + 1, current, acc =>
    match came_from current with
    | none => acc.reverse
    | some prev => reconstructAux came_from fuel prev (acc ++ [prev])

/-- Rust `reconstruct_path` from src/algo.rs, with explicit fuel. -/
def reconstruct_path (fuel : Nat) (came_from : Pos → Option Pos) (current : Pos) :
    List Pos :=
  reconstructAux came_from fuel current [current]

/-- Functional-map insert, modelling `HashMap::insert`. -/
def mapInsert {β : Type} (m : Pos → Option β) (k : Pos) (v : β) : Pos → Option β :=
  fun x => if x = k then some v else m x

/-- `HashSet::insert` on a duplicate-free list. -/
def setInsert (s : List Pos) (p : Pos) : List Pos := if p ∈ s then s else p :: s

/-- `HashSet::remove` on a duplicate-free list. -/
def setRemove (s : List Pos) (p : Pos) : List Pos := s.filter (fun q => q ≠ p)

/-- The strict lexicographic order on heap entries `(key, (row, col))`,
Rust's derived `Ord` on `(i32, (i32, i32))`. -/
def entryLt (a b : Int × Pos) : Prop :=
  a.1 < b.1 ∨ (a.1 = b.1 ∧ (a.2.1 < b.2.1 ∨ (a.2.1 = b.2.1 ∧ a.2.2 < b.2.2)))

instance instDecidableEntryLt (a b : Int × Pos) : Decidable (entryLt a b) := by
  unfold entryLt; infer_instance

/-- `BinaryHeap::pop`: remove and return a lexicographically greatest entry,
together with the remaining entries. -/
def popMax : List (Int × Pos) → Option ((Int × Pos) × List (Int × Pos))
  | [] => none
  | x :: xs =>
    match popMax xs with
    | none => some (x, [])
    | some (m, rest) => if entryLt x m then some (m, x :: rest) else some (x, xs)

/-- The ephemeral state of one `astar` call: the closed and open sets, the
`came_from`, `g_score` and `f_score` maps, and the binary heap mirroring the
open set. -/
structure AState where
  closedSet : List Pos
  openSet : List Pos
  cameFrom : Pos → Option Pos
  gScore : Pos → Option Int
  fScore : Pos → Option Int
  heap : List (Int × Pos)

/-- The body of `astar`'s `for neighbor in get_neighbors(..)` loop: skip
closed neighbors, compute the tentative g-score, admit new neighbors to the
open set and heap, skip non-improving known neighbors, and record
`came_from` / `g_score` / `f_score` otherwise.  `HashMap` indexing
`g_score[&current]` is modelled with `getD 0`; the algorithm only ever
indexes keys it has inserted. -/
def processNeighbor (heuristic : Pos → Pos → Int) (e current : Pos)
    (st : AState) (neighbor : Pos) : AState :=
  if neighbor ∈ st.closedSet then st
  else
    let tg := (st.gScore current).getD 0 + 1
    if neighbor ∉ st.openSet then
      let st1 : AState :=
        { st with openSet := setInsert st.openSet neighbor,
                  heap := (heuristic neighbor e, neighbor) :: st.heap }
      { st1 with cameFrom := mapInsert st1.cameFrom neighbor current,
                 gScore := mapInsert st1.gScore neighbor tg,
                 fScore := mapInsert st1.fScore neighbor (tg + heuristic neighbor e) }
    else if (st.gScore neighbor).getD 0 ≤ tg then st
    else
      { st with cameFrom := mapInsert st.cameFrom neighbor current,
                gScore := mapInsert st.gScore neighbor tg,
                fScore := mapInsert st.fScore neighbor (tg + heuristic neighbor e) }

/-- Fold of `processNeighbor` over the neighbor list. -/
def processNeighbors (heuristic : Pos → Pos → Int) (e current : Pos)
    (st : AState) (l : List Pos) : AState :=
  l.foldl (processNeighbor heuristic e current) st

/-- Outcome of one iteration of `astar`'s main loop. -/
inductive StepOut where
  | found : List Pos → StepOut
  | exhausted : StepOut
  | next : AState → StepOut

/-- The state reached from `st` after popping `current` (leaving `rest` in
the heap) and running the neighbor loop: `current` moves from the open to
the closed set and each of its neighbors is processed. -/
def astarNext (grid : GridV) (heuristic : Pos → Pos → Int)
    (is_cell_solid : Nat → Nat → GridV → Bool) (e current : Pos)
    (rest : List (Int × Pos)) (st : AState) : AState :=
  processNeighbors heuristic e current
    { st with heap := rest,
              openSet := setRemove st.openSet current,
              closedSet := setInsert st.closedSet current }
    (get_neighbors current.1 current.2 grid is_cell_solid)

/-- One iteration of `astar`'s `while !open_set_heap.is_empty()` loop: pop
the heap maximum, return the reconstructed path if it is `end`, otherwise
move it from the open to the closed set and process its neighbors.
`rf` is the fuel later passed to `reconstruct_path`. -/
def astarStep (grid : GridV) (heuristic : Pos → Pos → Int)
    (is_cell_solid : Nat → Nat → GridV → Bool) (e : Pos) (rf : Nat)
    (st : AState) : StepOut :=
  match popMax st.heap with
  | none => .exhausted
  | some ((_, current), rest) =>
    if current = e then .found (reconstruct_path rf st.cameFrom current)
    else .next (astarNext grid heuristic is_cell_solid e current rest st)

/-- The fueled main loop of `astar`. -/
def astarLoop (grid : GridV) (heuristic : Pos → Pos → Int)
    (is_cell_solid : Nat → Nat → GridV → Bool) (e : Pos) (rf : Nat) :
    Nat → AState → Option (Option (List Pos))
  | 0, _ => none
  | fuel + 1, st =>
    match astarStep grid heuristic is_cell_solid e rf st with
    | .exhausted => some none
    | .found p => some (some p)
    | .next st' => astarLoop grid heuristic is_cell_solid e rf fuel st'

/-- The initial search state built by `astar` before its loop. -/
def astarInit (start e : Pos) (heuristic : Pos → Pos → Int) : AState :=
  { closedSet := [], openSet := [start],
    cameFrom := fun _ => none,
    gScore := mapInsert (fun _ => none) start 0,
    fScore := mapInsert (fun _ => none) start (heuristic start e),
    heap := [(heuristic start e, start)] }

/-- Fuel used to run `astar`: one more than the cell count, which is proved
sufficient for every input the claims quantify over (each loop iteration
closes a distinct in-bounds cell). -/
def astarFuel (grid : GridV) : Nat := grid.length * (grid.headD []).length + 1

/-- Rust `astar` from src/algo.rs.  `none` means the fuel ran out,
`some none` is Rust's `None` (heap exhausted without reaching `end`),
`some (some p)` is Rust's `Some(p)`. -/
def astar (start e : Pos) (grid : GridV) (heuristic : Pos → Pos → Int)
    (is_cell_solid : Nat → Nat → GridV → Bool) : Option (Option (List Pos)) :=
  astarLoop grid heuristic is_cell_solid e (astarFuel grid) (astarFuel grid)
    (astarInit start e heuristic)

/-- The solidity predicate the front end (src/main.rs) and the doctests pass
to `astar`: `|row, col, grid| grid[row][col] == 1`. -/
def isOneSolid (row col : Nat) (grid : GridV) : Bool :=
  (grid.getD row []).getD col 0 == 1

/-- Rust `Grid<T>` from src/grid.rs. -/
structure Grid (α : Type) where
  width : Nat
  height : Nat
  cells : List (List α)

/-- Well-formedness of a `Grid`: the invariant established by `new` and by
`from_vec` on rectangular input, which the spec documents as caller
responsibility. -/
def Grid.WF {α : Type} (g : Grid α) : Prop :=
  g.cells.length = g.height ∧ ∀ r ∈ g.cells, r.length = g.width

/-- Rust `Grid::from_vec`: width is the first row's length, height the row
count. -/
def Grid.from_vec {α : Type} (cells : List (List α)) : Grid α :=
  { width := (cells.headD []).length, height := cells.length, cells := cells }

/-- Rust `Grid::get`: the cell value when in bounds, `None` otherwise. -/
def Grid.get {α : Type} (g : Grid α) (row col : Nat) : Option α :=
  if row < g.height ∧ col < g.width then (g.cells.getD row []).get? col else none

/-- Rust `Grid::set`: in bounds, replace the cell and return the previous
value; out of bounds, a no-op returning `None`.  Modelled as the pair
(returned value, grid after the call). -/
def Grid.set {α : Type} (g : Grid α) (row col : Nat) (value : α) :
    Option α × Grid α :=
  if row < g.height ∧ col < g.width then
    ((g.cells.getD row []).get? col,
     { g with cells := g.cells.set row ((g.cells.getD row []).set col value) })
  else (none, g)

/-- Positions within the bounds of a nested-vector grid. -/
def inBounds (grid : GridV) (p : Pos) : Prop :=
  0 ≤ p.1 ∧ p.1 < (grid.length : Int) ∧ 0 ≤ p.2 ∧ p.2 < ((grid.headD []).length : Int)

instance instDecidableInBounds (grid : GridV) (p : Pos) : Decidable (inBounds grid p) := by
  unfold inBounds; infer_instance

/-- Rectangularity of a nested-vector grid: every row as long as the first. -/
def gridRect (grid : GridV) : Prop :=
  ∀ r ∈ grid, r.length = (grid.headD []).length

/-- One orthogonal unit step, the only moves `get_neighbors` can produce. -/
def adjStep (p q : Pos) : Prop :=
  q = (p.1 - 1, p.2) ∨ q = (p.1, p.2 - 1) ∨ q = (p.1 + 1, p.2) ∨ q = (p.1, p.2 + 1)

instance instDecidableAdjStep (p q : Pos) : Decidable (adjStep p q) := by
  unfold adjStep; infer_instance

/-- The solidity predicate evaluated at a position's coordinates. -/
def solAt (sol : Nat → Nat → GridV → Bool) (grid : GridV) (p : Pos) : Bool :=
  sol p.1.toNat p.2.toNat grid

/-- The 5×5 grid whose border cells are all solid and whose interior cells
are all free — the grid described by the spec's concrete scenario. -/
def borderGrid5 : GridV :=
  [[1, 1, 1, 1, 1],
   [1, 0, 0, 0, 1],
   [1, 0, 0, 0, 1],
   [1, 0, 0, 0, 1],
   [1, 1, 1, 1, 1]]

/-- `parentChain m c l`: following `m` from `c` yields exactly the ancestors
`l` (nearest first), the last of which has no entry (the chain's root).
`parentChain m c []` means `c` itself is the root. -/
def parentChain (m : Pos → Option Pos) : Pos → List Pos → Prop
  | c, [] => m c = none
  | c, p :: rest => m c = some p ∧ parentChain m p rest

/-- The coordinate pairs at which `get_neighbors` evaluates `is_solid`, in
evaluation order, honouring the source's short-circuit: in each direction
the bounds test guards the predicate call.  This instruments the source's
`&&` evaluation order; the pairs do not depend on the predicate's values
because each guard is a pure bounds test. -/
def get_neighborsSolidCalls (row col : Int) (grid : GridV) : List (Nat × Nat) :=
  (if 0 < row then [(usizeCast row - 1, usizeCast col)] else []) ++
  (if 0 < col then [(usizeCast row, usizeCast col - 1)] else []) ++
  (if row < i32Cast grid.length - 1 then [(usizeCast row + 1, usizeCast col)] else []) ++
  (if col < i32Cast (grid.headD []).length - 1 then [(usizeCast row, usizeCast col + 1)] else [])

/-- Modelled from the spec's wording for claim C1: the popped entry's
f-score — "g_score plus heuristic estimate to end" — is lowest among all
positions currently in the priority structure.  (The structure still
contains the popped entry itself at pop time, so the comparison runs over
the whole heap.) -/
def popHasLowestF (heuristic : Pos → Pos → Int) (e : Pos) (st : AState)
    (x : Int × Pos) : Bool :=
  st.heap.all (fun y =>
    decide ((st.gScore x.2).getD 0 + heuristic x.2 e ≤
      (st.gScore y.2).getD 0 + heuristic y.2 e))

/-- What the code actually pops: a lexicographically greatest heap entry,
whose key is the heuristic estimate `heuristic(pos, end)` recorded when the
position was pushed (not the f-score). -/
def popIsHeapMax (heuristic : Pos → Pos → Int) (e : Pos) (st : AState)
    (x : Int × Pos) : Bool :=
  st.heap.all (fun y => decide (¬entryLt x y)) && decide (x.1 = heuristic x.2 e)

/-- Instrumented main loop: runs exactly the iterations `astarLoop` runs and
conjoins the per-pop property `P` over every pop. -/
def astarPopsCheck (grid : GridV) (heuristic : Pos → Pos → Int)
    (is_cell_solid : Nat → Nat → GridV → Bool) (e : Pos)
    (P : AState → Int × Pos → Bool) : Nat → AState → Bool
  | 0, _ => true
  | fuel + 1, st =>
    match popMax st.heap with
    | none => true
    | some (x, rest) =>
      P st x &&
        (if x.2 = e then true
         else astarPopsCheck grid heuristic is_cell_solid e P fuel
           (astarNext grid heuristic is_cell_solid e x.2 rest st))

/-- The positions currently in the heap. -/
def heapPos (st : AState) : List Pos := st.heap.map Prod.snd

/-- One orthogonal step from `n` toward `s` (rows first, then columns);
the staircase iterating it walks from `n` back to `s` inside the bounding
rectangle. -/
def stair (s n : Pos) : Pos :=
  if n.1 < s.1 then (n.1 + 1, n.2)
  else if s.1 < n.1 then (n.1 - 1, n.2)
  else if n.2 < s.2 then (n.1, n.2 + 1)
  else (n.1, n.2 - 1)

/-- `n` lies on some Manhattan-shortest route from `s` to `e` (the bounding
rectangle of the two endpoints). -/
def inRect (s e n : Pos) : Prop :=
  manhattan_distance s n + manhattan_distance n e = manhattan_distance s e

/-- The grid-independent invariant of `astar`'s loop state, holding from the
moment `start` is closed (i.e. after the first iteration) on: the open set
mirrors the heap, the heap holds no duplicate positions and no closed
position, heap keys are the pushed heuristic values, and the
`came_from`/`g_score` maps record an adjacency tree rooted at `start` whose
`g` values count the tree steps. -/
structure BaseInv (heuristic : Pos → Pos → Int) (start e : Pos) (st : AState) :
    Prop where
  open_iff_heap : ∀ p, p ∈ st.openSet ↔ p ∈ heapPos st
  heap_nodup : (heapPos st).Nodup
  heap_closed : ∀ p ∈ heapPos st, p ∉ st.closedSet
  closed_nodup : st.closedSet.Nodup
  heap_keys : ∀ y ∈ st.heap, y.1 = heuristic y.2 e
  start_closed : start ∈ st.closedSet
  came_start : st.cameFrom start = none
  g_start : st.gScore start = some 0
  came_props : ∀ n p, st.cameFrom n = some p →
    adjStep p n ∧ p ∈ st.closedSet ∧
    ∃ gp, st.gScore p = some gp ∧ st.gScore n = some (gp + 1)
  g_root : ∀ n, st.gScore n ≠ none → n = start ∨ st.cameFrom n ≠ none
  g_bounds : ∀ n k, st.gScore n = some k → 0 ≤ k ∧ k ≤ (st.closedSet.length : Int)
  heap_g : ∀ p ∈ heapPos st, st.gScore p ≠ none
  g_admitted : ∀ n, st.gScore n ≠ none → n ∈ heapPos st ∨ n ∈ st.closedSet

/-- The grid-dependent invariant of `astar`'s loop state (the part that
needs the grid well-formed and `start` in bounds): every admitted position
is in bounds, every admitted position other than `start` is free, each
closed position's neighbor list is fully admitted, and `end` was never
closed. -/
structure SetInv (grid : GridV) (sol : Nat → Nat → GridV → Bool)
    (start e : Pos) (st : AState) : Prop where
  mem_bounds : ∀ p, (p ∈ heapPos st ∨ p ∈ st.closedSet) → inBounds grid p
  mem_free : ∀ p, (p ∈ heapPos st ∨ p ∈ st.closedSet) →
    p = start ∨ solAt sol grid p = false
  closed_nbrs : ∀ c ∈ st.closedSet, ∀ p ∈ get_neighbors c.1 c.2 grid sol,
    p ∈ heapPos st ∨ p ∈ st.closedSet
  e_not_closed : e ∉ st.closedSet

/-- The optimality invariant of `astar`'s loop on an all-free grid run with
the Manhattan heuristic: every recorded `g` value is at least the Manhattan
distance from `start`; every closed position on the `start`–`e` bounding
rectangle (other than `start`) has its staircase parent closed; and any
rectangle position whose staircase parent is closed already carries a `g`
value at most — hence, with the lower bound, exactly — its Manhattan
distance from `start`. -/
structure RectInv (start e : Pos) (st : AState) : Prop where
  lb : ∀ n v, st.gScore n = some v → manhattan_distance start n ≤ v
  closed_stair : ∀ n ∈ st.closedSet, inRect start e n → n ≠ start →
    stair start n ∈ st.closedSet
  gub : ∀ n, inRect start e n → n ≠ start → stair start n ∈ st.closedSet →
    ∃ v, st.gScore n = some v ∧ v ≤ manhattan_distance start n

/-! ## Helper lemmas -/

theorem usizeCast_nonneg (i : Int) (h0 : 0 ≤ i) (h1 : i < 2 ^ 64) :
    usizeCast i = i.toNat := by
  unfold usizeCast
  rw [Int.emod_eq_of_lt h0 h1]

theorem i32Cast_small (n : Nat) (h : n < 2 ^ 31) : i32Cast n = n := by
  unfold i32Cast
  rw [Int.emod_eq_of_lt (by omega) (by omega)]
  omega

theorem reconstructAux_chain (m : Pos → Option Pos) (l : List Pos) :
    ∀ (c : Pos) (acc : List Pos) (fuel : Nat), parentChain m c l → l.length ≤ fuel →
      reconstructAux m fuel c acc = (acc ++ l).reverse := by
  induction l with
  | nil =>
    intro c acc fuel hch _
    cases fuel with
    | zero => simp [reconstructAux]
    | succ f => simp [reconstructAux, show m c = none from hch]
  | cons p rest ih =>
    intro c acc fuel hch hf
    cases fuel with
    | zero => simp at hf
    | succ f =>
      simp only [reconstructAux, hch.1]
      rw [ih p (acc ++ [p]) f hch.2 (by simpa using hf)]
      simp

/-! ## Claim theorems -/

/-- C8: for every `came_from` map forming a finite acyclic parent chain from
`current` back to a root with no entry (`parentChain m current l`, the
ancestors nearest-first), `reconstruct_path` returns the chain's positions
ordered root first and `current` last, including both endpoints —
`(current :: l).reverse`. -/
theorem reconstruct_path_parentChain (m : Pos → Option Pos) (c : Pos)
    (l : List Pos) (fuel : Nat) (hch : parentChain m c l) (hf : l.length ≤ fuel) :
    reconstruct_path fuel m c = (c :: l).reverse := by
  unfold reconstruct_path
  rw [reconstructAux_chain m l c [c] fuel hch hf]
  rfl

/-- Witness for C8, the spec's own instance: `came_from[c] = b`,
`came_from[b] = a`, reconstruction from `c` yields `[a, b, c]` with
`a = (0,0)`, `b = (0,1)`, `c = (0,2)`. -/
theorem reconstruct_path_parentChain_witness :
    reconstruct_path 2
      (mapInsert (mapInsert (fun _ => none) (0, 2) (0, 1)) (0, 1) (0, 0)) (0, 2) =
      [(0, 0), (0, 1), (0, 2)] := by
  have h := reconstruct_path_parentChain
    (mapInsert (mapInsert (fun _ => none) (0, 2) (0, 1)) (0, 1) (0, 0))
    (0, 2) [(0, 1), (0, 0)] 2 (by exact ⟨by decide, by decide, show (fun (_ : Pos) => (none : Option Pos)) (0, 0) = none from rfl⟩)
    (by decide)
  simpa using h

/-- C3 counterexample: on the 5×5 grid with solid border and free interior,
`astar` from (1,1) to (1,3) does not return the 6-move path the spec
predicts (that path belongs to the doctest grid, which also has interior
obstacles at (1,2) and (2,2)). -/
theorem astar_borderGrid5_ne_spec_path :
    astar (1, 1) (1, 3) borderGrid5 manhattan_distance isOneSolid ≠
      some (some [(1, 1), (2, 1), (3, 1), (3, 2), (3, 3), (2, 3), (1, 3)]) := by
  decide

/-- C3 amended: on the 5×5 grid with solid border and free interior,
`astar` from (1,1) to (1,3) with the Manhattan heuristic and the
`value == 1` solidity predicate returns `[(1,1), (1,2), (1,3)]`, a shortest
route of 2 moves (its position count is the Manhattan distance plus one). -/
theorem astar_borderGrid5_path :
    astar (1, 1) (1, 3) borderGrid5 manhattan_distance isOneSolid =
      some (some [(1, 1), (1, 2), (1, 3)]) ∧
    ([(1, 1), (1, 2), (1, 3)] : List Pos).length =
      (manhattan_distance (1, 1) (1, 3)).toNat + 1 := by
  exact ⟨by decide, by decide⟩

/-- C10: calling `astar` with `start = end` returns the present singleton
path `[p]` for every grid, heuristic and solidity predicate — the first
loop iteration pops `start`, sees it equals `end` and reconstructs from an
empty `came_from`; the grid and the predicate are never consulted (the
result is independent of both), even when `p` is out of bounds or solid. -/
theorem astar_start_eq_end (p : Pos) (grid : GridV) (heuristic : Pos → Pos → Int)
    (is_cell_solid : Nat → Nat → GridV → Bool) :
    astar p p grid heuristic is_cell_solid = some (some [p]) := by
  unfold astar astarFuel
  simp [astarLoop, astarStep, astarInit, popMax, reconstruct_path, reconstructAux]

/-- C9: for every well-formed `Grid` and every `(row, col)`: `get` returns
the stored cell value exactly when `row < height` and `col < width`, and
`none` otherwise (`get` is pure, so it cannot mutate the grid);
out-of-bounds `set` returns `none` and leaves the grid — hence every
cell — unchanged; in-bounds `set` stores the new value and returns the
previous value of that cell, leaving all other cells unchanged. -/
theorem Grid.get_set_spec {α : Type} (g : Grid α) (hWF : g.WF) (row col : Nat)
    (value : α) :
    (row < g.height ∧ col < g.width →
      ∃ old,
        (g.cells.getD row [])[col]? = some old ∧
        g.get row col = some old ∧
        (g.set row col value).1 = some old ∧
        (g.set row col value).2.get row col = some value ∧
        (∀ r c : Nat, ¬(r = row ∧ c = col) →
          (g.set row col value).2.get r c = g.get r c)) ∧
    (¬(row < g.height ∧ col < g.width) →
      g.get row col = none ∧ g.set row col value = (none, g)) := by
  obtain ⟨hlen, hrows⟩ := hWF
  constructor
  · rintro ⟨hr, hc⟩
    have hrl : row < g.cells.length := by omega
    have hcellsrow : g.cells[row]? = some (g.cells.get ⟨row, hrl⟩) := by
      rw [List.getElem?_eq_some]
      exact ⟨hrl, rfl⟩
    have hR : g.cells.getD row [] = g.cells.get ⟨row, hrl⟩ := by
      rw [List.getD_eq_getElem?_getD, hcellsrow]
      rfl
    have hRmem : g.cells.get ⟨row, hrl⟩ ∈ g.cells := List.get_mem g.cells row hrl
    have hRlen : (g.cells.get ⟨row, hrl⟩).length = g.width :=
      hrows _ hRmem
    have hcl : col < (g.cells.get ⟨row, hrl⟩).length := by omega
    have hset : g.set row col value =
        ((g.cells.getD row []).get? col,
         { g with cells := g.cells.set row ((g.cells.getD row []).set col value) }) := by
      unfold Grid.set
      rw [if_pos ⟨hr, hc⟩]
    have hgetold : (g.cells.getD row []).get? col = some ((g.cells.get ⟨row, hrl⟩).get ⟨col, hcl⟩) := by
      rw [hR, List.get?_eq_getElem?, List.getElem?_eq_some]
      exact ⟨hcl, rfl⟩
    refine ⟨(g.cells.get ⟨row, hrl⟩).get ⟨col, hcl⟩, ?_, ?_, ?_, ?_, ?_⟩
    · rw [hR, List.getElem?_eq_some]
      exact ⟨hcl, rfl⟩
    · unfold Grid.get
      rw [if_pos ⟨hr, hc⟩]
      exact hgetold
    · rw [hset]
      exact hgetold
    · rw [hset]
      unfold Grid.get
      dsimp only
      rw [if_pos (show row < g.height ∧ col < g.width from ⟨hr, hc⟩)]
      rw [List.getD_eq_getElem?_getD, List.getElem?_set_eq_of_lt _ hrl]
      simp only [Option.getD_some]
      rw [List.get?_eq_getElem?, hR, List.getElem?_set_eq_of_lt _ hcl]
    · intro r c hne
      rw [hset]
      unfold Grid.get
      dsimp only
      by_cases hrr : r = row
      · subst hrr
        have hcc : c ≠ col := by tauto
        by_cases hb : r < g.height ∧ c < g.width
        · rw [if_pos hb, if_pos hb]
          rw [List.getD_eq_getElem?_getD, List.getElem?_set_eq_of_lt _ hrl]
          simp only [Option.getD_some]
          rw [List.get?_eq_getElem?, hR, List.getElem?_set_ne (by omega),
            ← List.get?_eq_getElem?]
        · rw [if_neg hb, if_neg hb]
      · by_cases hb : r < g.height ∧ c < g.width
        · rw [if_pos hb, if_pos hb]
          rw [List.getD_eq_getElem?_getD, List.getElem?_set_ne (by omega),
            ← List.getD_eq_getElem?_getD]
        · rw [if_neg hb, if_neg hb]
  · intro h
    unfold Grid.get Grid.set
    rw [if_neg h, if_neg h]
    exact ⟨rfl, rfl⟩

/-- Witness for C9 on the 2×2 grid `[[1,2],[3,4]]`: setting cell (0,1) to 9
returns the previous value 2 and stores 9. -/
theorem Grid.get_set_spec_witness :
    ((⟨2, 2, [[1, 2], [3, 4]]⟩ : Grid Int).set 0 1 9).1 = some 2 ∧
    ((⟨2, 2, [[1, 2], [3, 4]]⟩ : Grid Int).set 0 1 9).2.get 0 1 = some 9 := by
  obtain ⟨h1, -⟩ :=
    Grid.get_set_spec (⟨2, 2, [[1, 2], [3, 4]]⟩ : Grid Int) ⟨rfl, by decide⟩ 0 1 9
  obtain ⟨old, hold, -, hset1, hset2, -⟩ := h1 ⟨by decide, by decide⟩
  have h2 : old = 2 := by
    have h3 := hold
    simp only [List.getD, List.getElem?_cons_zero, Option.getD_some] at h3
    exact (Option.some.inj h3).symm
  subst h2
  exact ⟨hset1, hset2⟩

/-- Characterization of `get_neighbors` at an in-bounds call site: the four
candidates in source order, each kept exactly when in bounds and not solid.
Shared helper behind several theorems. -/
theorem get_neighbors_chars (grid : GridV) (sol : Nat → Nat → GridV → Bool)
    (row col : Int)
    (hH : grid.length < 2 ^ 31) (hW : (grid.headD []).length < 2 ^ 31)
    (hin : inBounds grid (row, col)) :
    get_neighbors row col grid sol =
      (if inBounds grid (row - 1, col) ∧ solAt sol grid (row - 1, col) = false
        then [(row - 1, col)] else []) ++
      (if inBounds grid (row, col - 1) ∧ solAt sol grid (row, col - 1) = false
        then [(row, col - 1)] else []) ++
      (if inBounds grid (row + 1, col) ∧ solAt sol grid (row + 1, col) = false
        then [(row + 1, col)] else []) ++
      (if inBounds grid (row, col + 1) ∧ solAt sol grid (row, col + 1) = false
        then [(row, col + 1)] else []) ∧
    (get_neighbors row col grid sol).length ≤ 4 ∧
    ∀ p ∈ get_neighbors row col grid sol, adjStep (row, col) p := by
  obtain ⟨h1, h2, h3, h4⟩ := hin
  simp only at h1 h2 h3 h4
  have eRow : usizeCast row = row.toNat := usizeCast_nonneg row h1 (by omega)
  have eCol : usizeCast col = col.toNat := usizeCast_nonneg col h3 (by omega)
  have i1 : (0 < row ∧ sol (usizeCast row - 1) (usizeCast col) grid = false) ↔
      (inBounds grid (row - 1, col) ∧ solAt sol grid (row - 1, col) = false) := by
    unfold inBounds solAt
    by_cases hr0 : 0 < row
    · have e1 : usizeCast row - 1 = (row - 1).toNat := by rw [eRow]; omega
      rw [e1, eCol]
      constructor
      · rintro ⟨-, hs⟩
        exact ⟨⟨by omega, by omega, h3, h4⟩, hs⟩
      · rintro ⟨-, hs⟩
        exact ⟨hr0, hs⟩
    · constructor
      · rintro ⟨hr, -⟩
        exact absurd hr hr0
      · rintro ⟨⟨ha, -, -, -⟩, -⟩
        exact absurd (by omega : 0 < row) hr0
  have i2 : (0 < col ∧ sol (usizeCast row) (usizeCast col - 1) grid = false) ↔
      (inBounds grid (row, col - 1) ∧ solAt sol grid (row, col - 1) = false) := by
    unfold inBounds solAt
    by_cases hc0 : 0 < col
    · have e1 : usizeCast col - 1 = (col - 1).toNat := by rw [eCol]; omega
      rw [e1, eRow]
      constructor
      · rintro ⟨-, hs⟩
        exact ⟨⟨h1, h2, by omega, by omega⟩, hs⟩
      · rintro ⟨-, hs⟩
        exact ⟨hc0, hs⟩
    · constructor
      · rintro ⟨hc, -⟩
        exact absurd hc hc0
      · rintro ⟨⟨-, -, ha, -⟩, -⟩
        exact absurd (by omega : 0 < col) hc0
  have i3 : (row < i32Cast grid.length - 1 ∧
        sol (usizeCast row + 1) (usizeCast col) grid = false) ↔
      (inBounds grid (row + 1, col) ∧ solAt sol grid (row + 1, col) = false) := by
    unfold inBounds solAt
    rw [i32Cast_small grid.length hH]
    have e1 : usizeCast row + 1 = (row + 1).toNat := by rw [eRow]; omega
    rw [e1, eCol]
    constructor
    · rintro ⟨hb, hs⟩
      exact ⟨⟨by omega, by omega, h3, h4⟩, hs⟩
    · rintro ⟨⟨-, hb, -, -⟩, hs⟩
      exact ⟨by omega, hs⟩
  have i4 : (col < i32Cast (grid.headD []).length - 1 ∧
        sol (usizeCast row) (usizeCast col + 1) grid = false) ↔
      (inBounds grid (row, col + 1) ∧ solAt sol grid (row, col + 1) = false) := by
    unfold inBounds solAt
    rw [i32Cast_small (grid.headD []).length hW]
    have e1 : usizeCast col + 1 = (col + 1).toNat := by rw [eCol]; omega
    rw [e1, eRow]
    constructor
    · rintro ⟨hb, hs⟩
      exact ⟨⟨h1, h2, by omega, by omega⟩, hs⟩
    · rintro ⟨⟨-, -, -, hb⟩, hs⟩
      exact ⟨by omega, hs⟩
  refine ⟨?_, ?_, ?_⟩
  · unfold get_neighbors
    rw [if_congr i1 rfl rfl, if_congr i2 rfl rfl, if_congr i3 rfl rfl,
      if_congr i4 rfl rfl]
  · unfold get_neighbors
    split_ifs <;> simp
  · unfold get_neighbors
    split_ifs <;> simp [adjStep]

/-- C6: for every in-bounds cell `(row, col)` of a non-empty grid (bounds
taken, as in the source, against the row count and the first row's length),
`get_neighbors` returns exactly the orthogonally adjacent positions that
are in bounds and not solid under the predicate, in the fixed order up,
left, down, right; it never returns more than 4 positions and every
returned position is one orthogonal unit step away (never diagonal).  The
size bounds keep the source's `len() as i32` casts exact. -/
theorem get_neighbors_spec (grid : GridV) (sol : Nat → Nat → GridV → Bool)
    (row col : Int)
    (hH : grid.length < 2 ^ 31) (hW : (grid.headD []).length < 2 ^ 31)
    (hin : inBounds grid (row, col)) :
    get_neighbors row col grid sol =
      (if inBounds grid (row - 1, col) ∧ solAt sol grid (row - 1, col) = false
        then [(row - 1, col)] else []) ++
      (if inBounds grid (row, col - 1) ∧ solAt sol grid (row, col - 1) = false
        then [(row, col - 1)] else []) ++
      (if inBounds grid (row + 1, col) ∧ solAt sol grid (row + 1, col) = false
        then [(row + 1, col)] else []) ++
      (if inBounds grid (row, col + 1) ∧ solAt sol grid (row, col + 1) = false
        then [(row, col + 1)] else []) ∧
    (get_neighbors row col grid sol).length ≤ 4 ∧
    ∀ p ∈ get_neighbors row col grid sol, adjStep (row, col) p :=
  get_neighbors_chars grid sol row col hH hW hin

/-- Witness for C6: the interior cell (1,1) of an all-free 3×3 grid has
exactly the four neighbors, in order up, left, down, right. -/
theorem get_neighbors_spec_witness :
    get_neighbors 1 1 [[0, 0, 0], [0, 0, 0], [0, 0, 0]] isOneSolid =
      [(0, 1), (1, 0), (2, 1), (1, 2)] := by
  rw [(get_neighbors_spec [[0, 0, 0], [0, 0, 0], [0, 0, 0]] isOneSolid 1 1
    (by decide) (by decide) (by decide)).1]
  decide

/-- C7 counterexample: called with the out-of-bounds row 10 on a 3×3 grid,
`get_neighbors` does invoke the solidity predicate on out-of-bounds
coordinates — the up-direction guard `row > 0` passes and the predicate is
evaluated at row 9, which is outside the grid. -/
theorem get_neighbors_calls_can_be_out_of_bounds :
    (9, 1) ∈ get_neighborsSolidCalls 10 1 [[0, 0, 0], [0, 0, 0], [0, 0, 0]] ∧
    ¬((9 : Nat) < ([[0, 0, 0], [0, 0, 0], [0, 0, 0]] : GridV).length) := by
  constructor
  · decide
  · decide

/-- C7 amended: for every call of `get_neighbors` whose own `(row, col)` is
in bounds (as `astar` guarantees on well-formed inputs), the solidity
predicate is never invoked with out-of-bounds coordinates: each direction's
bounds check short-circuits before the predicate is evaluated, so every
coordinate pair passed to the predicate is in bounds. -/
theorem get_neighborsSolidCalls_in_bounds (grid : GridV) (row col : Int)
    (hH : grid.length < 2 ^ 31) (hW : (grid.headD []).length < 2 ^ 31)
    (hin : inBounds grid (row, col)) :
    ∀ q ∈ get_neighborsSolidCalls row col grid,
      q.1 < grid.length ∧ q.2 < (grid.headD []).length := by
  obtain ⟨h1, h2, h3, h4⟩ := hin
  simp only at h1 h2 h3 h4
  have eRow : usizeCast row = row.toNat := usizeCast_nonneg row h1 (by omega)
  have eCol : usizeCast col = col.toNat := usizeCast_nonneg col h3 (by omega)
  unfold get_neighborsSolidCalls
  rw [i32Cast_small grid.length hH, i32Cast_small (grid.headD []).length hW]
  split_ifs <;> simp_all <;> omega

/-- Witness for C7's amended theorem: the first predicate call of the
in-bounds call site (1,1) on a 3×3 grid is in bounds. -/
theorem get_neighborsSolidCalls_in_bounds_witness :
    (0 : Nat) < ([[0, 0, 0], [0, 0, 0], [0, 0, 0]] : GridV).length ∧
    (1 : Nat) < (([[0, 0, 0], [0, 0, 0], [0, 0, 0]] : GridV).headD []).length :=
  get_neighborsSolidCalls_in_bounds [[0, 0, 0], [0, 0, 0], [0, 0, 0]] 1 1
    (by decide) (by decide) (by decide) (0, 1) (by decide)

theorem entryLt_irrefl (a : Int × Pos) : ¬entryLt a a := by
  unfold entryLt; omega

theorem entryLt_asymm (a b : Int × Pos) (h : entryLt a b) : ¬entryLt b a := by
  unfold entryLt at h ⊢; omega

theorem entryLt_trans (a b c : Int × Pos) (h1 : entryLt a b) (h2 : entryLt b c) :
    entryLt a c := by
  unfold entryLt at h1 h2 ⊢; omega

theorem entryLt_of_not_of_ne (a b : Int × Pos) (h : ¬entryLt a b) (hne : a ≠ b) :
    entryLt b a := by
  rcases a with ⟨a1, a2, a3⟩
  rcases b with ⟨b1, b2, b3⟩
  simp only [ne_eq, Prod.mk.injEq, not_and] at hne
  unfold entryLt at h ⊢
  simp only at h ⊢
  by_cases e1 : a1 = b1
  · by_cases e2 : a2 = b2
    · subst e1; subst e2
      have : ¬a3 = b3 := by tauto
      omega
    · subst e1; omega
  · omega

theorem popMax_eq_none (l : List (Int × Pos)) : popMax l = none ↔ l = [] := by
  cases l with
  | nil => simp [popMax]
  | cons a as =>
    rw [popMax]
    cases h : popMax as with
    | none => simp
    | some pr =>
      obtain ⟨m, mrest⟩ := pr
      by_cases hlt : entryLt a m <;> simp [hlt]

theorem popMax_perm (l : List (Int × Pos)) (x : Int × Pos)
    (rest : List (Int × Pos)) (h : popMax l = some (x, rest)) :
    l.Perm (x :: rest) := by
  induction l generalizing x rest with
  | nil => simp [popMax] at h
  | cons a as ih =>
    rw [popMax] at h
    cases has : popMax as with
    | none =>
      simp only [has, Option.some.injEq, Prod.mk.injEq] at h
      obtain ⟨rfl, rfl⟩ := h
      rw [(popMax_eq_none as).mp has]
    | some pr =>
      obtain ⟨m, mrest⟩ := pr
      simp only [has] at h
      by_cases hlt : entryLt a m
      · rw [if_pos hlt] at h
        simp only [Option.some.injEq, Prod.mk.injEq] at h
        obtain ⟨rfl, rfl⟩ := h
        have hp := ih m mrest has
        exact (hp.cons a).trans (List.Perm.swap m a mrest)
      · rw [if_neg hlt] at h
        simp only [Option.some.injEq, Prod.mk.injEq] at h
        obtain ⟨rfl, rfl⟩ := h
        exact List.Perm.refl _

theorem popMax_le (l : List (Int × Pos)) (x : Int × Pos)
    (rest : List (Int × Pos)) (h : popMax l = some (x, rest)) :
    ∀ y ∈ l, ¬entryLt x y := by
  induction l generalizing x rest with
  | nil => simp [popMax] at h
  | cons a as ih =>
    rw [popMax] at h
    cases has : popMax as with
    | none =>
      simp only [has, Option.some.injEq, Prod.mk.injEq] at h
      obtain ⟨rfl, rfl⟩ := h
      have hasnil := (popMax_eq_none as).mp has
      subst hasnil
      intro y hy
      simp only [List.mem_singleton] at hy
      subst hy
      exact entryLt_irrefl _
    | some pr =>
      obtain ⟨m, mrest⟩ := pr
      simp only [has] at h
      by_cases hlt : entryLt a m
      · rw [if_pos hlt] at h
        simp only [Option.some.injEq, Prod.mk.injEq] at h
        obtain ⟨rfl, rfl⟩ := h
        intro y hy
        rcases List.mem_cons.mp hy with rfl | hy2
        · exact entryLt_asymm _ _ hlt
        · exact ih m mrest has y hy2
      · rw [if_neg hlt] at h
        simp only [Option.some.injEq, Prod.mk.injEq] at h
        obtain ⟨rfl, rfl⟩ := h
        intro y hy
        rcases List.mem_cons.mp hy with rfl | hy2
        · exact entryLt_irrefl _
        · intro hay
          have hmy := ih m mrest has y hy2
          rcases Decidable.em (m = a) with rfl | hne
          · exact hmy hay
          · exact hmy (entryLt_trans _ _ _
              (entryLt_of_not_of_ne a m hlt (fun ham => hne ham.symm)) hay)

theorem processNeighbors_inv (P : AState → Prop) (heuristic : Pos → Pos → Int)
    (e c : Pos)
    (hstep : ∀ st n, P st → P (processNeighbor heuristic e c st n)) :
    ∀ (l : List Pos) (st : AState), P st → P (processNeighbors heuristic e c st l) := by
  intro l
  induction l with
  | nil => intro st hP; exact hP
  | cons n ns ih => intro st hP; exact ih _ (hstep st n hP)

theorem processNeighbor_cases (heuristic : Pos → Pos → Int) (e c : Pos)
    (st : AState) (n : Pos) :
    (n ∈ st.closedSet ∧ processNeighbor heuristic e c st n = st) ∨
    (n ∉ st.closedSet ∧ n ∉ st.openSet ∧
      processNeighbor heuristic e c st n =
        { closedSet := st.closedSet,
          openSet := setInsert st.openSet n,
          cameFrom := mapInsert st.cameFrom n c,
          gScore := mapInsert st.gScore n ((st.gScore c).getD 0 + 1),
          fScore := mapInsert st.fScore n
            ((st.gScore c).getD 0 + 1 + heuristic n e),
          heap := (heuristic n e, n) :: st.heap }) ∨
    (n ∉ st.closedSet ∧ n ∈ st.openSet ∧
      (st.gScore n).getD 0 ≤ (st.gScore c).getD 0 + 1 ∧
      processNeighbor heuristic e c st n = st) ∨
    (n ∉ st.closedSet ∧ n ∈ st.openSet ∧
      (st.gScore c).getD 0 + 1 < (st.gScore n).getD 0 ∧
      processNeighbor heuristic e c st n =
        { st with cameFrom := mapInsert st.cameFrom n c,
                  gScore := mapInsert st.gScore n ((st.gScore c).getD 0 + 1),
                  fScore := mapInsert st.fScore n
                    ((st.gScore c).getD 0 + 1 + heuristic n e) }) := by
  unfold processNeighbor
  by_cases h1 : n ∈ st.closedSet
  · left
    exact ⟨h1, by rw [if_pos h1]⟩
  · right
    by_cases h2 : n ∈ st.openSet
    · right
      by_cases h3 : (st.gScore n).getD 0 ≤ (st.gScore c).getD 0 + 1
      · left
        refine ⟨h1, h2, h3, ?_⟩
        rw [if_neg h1]
        simp only
        rw [if_neg (by simpa using h2), if_pos h3]
      · right
        refine ⟨h1, h2, by omega, ?_⟩
        rw [if_neg h1]
        simp only
        rw [if_neg (by simpa using h2), if_neg h3]
    · left
      refine ⟨h1, h2, ?_⟩
      rw [if_neg h1]
      simp only
      rw [if_pos (by simpa using h2)]

theorem astarPopsCheck_heap_max (grid : GridV) (heuristic : Pos → Pos → Int)
    (sol : Nat → Nat → GridV → Bool) (e : Pos) :
    ∀ (fuel : Nat) (st : AState), (∀ y ∈ st.heap, y.1 = heuristic y.2 e) →
      astarPopsCheck grid heuristic sol e (popIsHeapMax heuristic e) fuel st = true := by
  intro fuel
  induction fuel with
  | zero => intro st _; rfl
  | succ f ih =>
    intro st hk
    cases hp : popMax st.heap with
    | none => simp [astarPopsCheck, hp]
    | some pr =>
      obtain ⟨x, rest⟩ := pr
      have hperm := popMax_perm st.heap x rest hp
      have hmem : x ∈ st.heap := hperm.symm.subset (List.mem_cons_self x rest)
      have hPx : popIsHeapMax heuristic e st x = true := by
        unfold popIsHeapMax
        rw [Bool.and_eq_true]
        constructor
        · rw [List.all_eq_true]
          intro y hy
          exact decide_eq_true (popMax_le st.heap x rest hp y hy)
        · exact decide_eq_true (hk x hmem)
      simp only [astarPopsCheck, hp]
      rw [hPx, Bool.true_and]
      by_cases hxe : x.2 = e
      · rw [if_pos hxe]
      · rw [if_neg hxe]
        apply ih
        unfold astarNext
        apply processNeighbors_inv (fun s => ∀ y ∈ s.heap, y.1 = heuristic y.2 e)
        · intro s n hs y hy
          rcases processNeighbor_cases heuristic e x.2 s n with
            ⟨-, hEq⟩ | ⟨-, -, hEq⟩ | ⟨-, -, -, hEq⟩ | ⟨-, -, -, hEq⟩ <;>
            rw [hEq] at hy
          · exact hs y hy
          · rcases List.mem_cons.mp hy with rfl | hy2
            · rfl
            · exact hs y hy2
          · exact hs y hy
          · exact hs y hy
        · intro y hy
          simp only at hy
          exact hk y (hperm.symm.subset (List.mem_cons_of_mem x hy))

/-- C1 amended: on every iteration of `astar`'s main loop, the entry
removed from the priority structure is a lexicographically greatest one —
ordered first by its stored key, which is the plain heuristic estimate
`heuristic(pos, end)` recorded at push time (not the f-score), with ties
broken by the natural ordering of the position tuple, greatest first
(Rust's `BinaryHeap` is a max-heap). -/
theorem astar_pop_is_heap_lex_max (grid : GridV) (heuristic : Pos → Pos → Int)
    (sol : Nat → Nat → GridV → Bool) (start e : Pos) :
    astarPopsCheck grid heuristic sol e (popIsHeapMax heuristic e)
      (astarFuel grid) (astarInit start e heuristic) = true := by
  apply astarPopsCheck_heap_max
  intro y hy
  simp only [astarInit, List.mem_singleton] at hy
  subst hy
  rfl

/-- C1 counterexample: on the 1×3 all-free grid with start (0,1) and end
(0,2), the second iteration pops (0,0) whose f-score is 3 while the heap
still holds (0,2) with f-score 1 — the popped position's f-score is not
lowest, refuting the claim as stated. -/
theorem astar_pop_not_lowest_f :
    astarPopsCheck [[0, 0, 0]] manhattan_distance isOneSolid (0, 2)
      (popHasLowestF manhattan_distance (0, 2))
      (astarFuel [[0, 0, 0]]) (astarInit (0, 1) (0, 2) manhattan_distance) = false := by
  decide

theorem get_neighbors_adj (grid : GridV) (sol : Nat → Nat → GridV → Bool)
    (row col : Int) : ∀ p ∈ get_neighbors row col grid sol, adjStep (row, col) p := by
  unfold get_neighbors
  split_ifs <;> simp [adjStep]

theorem mem_get_neighbors (grid : GridV) (sol : Nat → Nat → GridV → Bool)
    (row col : Int)
    (hH : grid.length < 2 ^ 31) (hW : (grid.headD []).length < 2 ^ 31)
    (hin : inBounds grid (row, col)) (p : Pos) :
    p ∈ get_neighbors row col grid sol ↔
      adjStep (row, col) p ∧ inBounds grid p ∧ solAt sol grid p = false := by
  rw [(get_neighbors_chars grid sol row col hH hW hin).1]
  simp only [List.mem_append]
  constructor
  · rintro (((h | h) | h) | h) <;> rw [List.mem_ite_nil_right] at h <;>
      obtain ⟨⟨hb, hs⟩, hm⟩ := h <;> rw [List.mem_singleton] at hm <;> subst hm
    · exact ⟨Or.inl rfl, hb, hs⟩
    · exact ⟨Or.inr (Or.inl rfl), hb, hs⟩
    · exact ⟨Or.inr (Or.inr (Or.inl rfl)), hb, hs⟩
    · exact ⟨Or.inr (Or.inr (Or.inr rfl)), hb, hs⟩
  · rintro ⟨hadj, hb, hs⟩
    rcases hadj with rfl | rfl | rfl | rfl
    · exact Or.inl (Or.inl (Or.inl (by
        rw [List.mem_ite_nil_right]
        exact ⟨⟨hb, hs⟩, List.mem_singleton.mpr rfl⟩)))
    · exact Or.inl (Or.inl (Or.inr (by
        rw [List.mem_ite_nil_right]
        exact ⟨⟨hb, hs⟩, List.mem_singleton.mpr rfl⟩)))
    · exact Or.inl (Or.inr (by
        rw [List.mem_ite_nil_right]
        exact ⟨⟨hb, hs⟩, List.mem_singleton.mpr rfl⟩))
    · exact Or.inr (by
        rw [List.mem_ite_nil_right]
        exact ⟨⟨hb, hs⟩, List.mem_singleton.mpr rfl⟩)

theorem adjStep_mdist (s c n : Pos) (h : adjStep c n) :
    manhattan_distance s n ≤ manhattan_distance s c + 1 := by
  rcases h with rfl | rfl | rfl | rfl <;> unfold manhattan_distance <;> dsimp only <;> omega

theorem manhattan_nonneg (a b : Pos) : 0 ≤ manhattan_distance a b := by
  unfold manhattan_distance
  positivity

theorem manhattan_eq_zero (a b : Pos) : manhattan_distance a b = 0 ↔ a = b := by
  rcases a with ⟨a1, a2⟩
  rcases b with ⟨b1, b2⟩
  unfold manhattan_distance
  dsimp only
  rw [Prod.mk.injEq]
  omega

theorem stair_adjStep (s n : Pos) (h : n ≠ s) : adjStep (stair s n) n := by
  rcases n with ⟨n1, n2⟩
  rcases s with ⟨s1, s2⟩
  rw [ne_eq, Prod.mk.injEq, not_and_or] at h
  unfold stair adjStep
  dsimp only
  split_ifs <;> simp [Prod.mk.injEq]

theorem stair_mdist (s n : Pos) (h : n ≠ s) :
    manhattan_distance s (stair s n) = manhattan_distance s n - 1 := by
  rcases n with ⟨n1, n2⟩
  rcases s with ⟨s1, s2⟩
  rw [ne_eq, Prod.mk.injEq, not_and_or] at h
  unfold stair manhattan_distance
  dsimp only
  split_ifs <;> dsimp only <;> omega

theorem stair_inRect (s e n : Pos) (hr : inRect s e n) (h : n ≠ s) :
    inRect s e (stair s n) ∧
    manhattan_distance (stair s n) e = manhattan_distance n e + 1 := by
  rcases n with ⟨n1, n2⟩
  rcases s with ⟨s1, s2⟩
  rcases e with ⟨e1, e2⟩
  rw [ne_eq, Prod.mk.injEq, not_and_or] at h
  unfold inRect manhattan_distance at hr
  unfold stair
  dsimp only at hr ⊢
  split_ifs <;> unfold inRect manhattan_distance <;> dsimp only <;>
    constructor <;> omega

theorem inRect_inBounds (grid : GridV) (s e n : Pos) (hs : inBounds grid s)
    (he : inBounds grid e) (hr : inRect s e n) : inBounds grid n := by
  rcases n with ⟨n1, n2⟩
  rcases s with ⟨s1, s2⟩
  rcases e with ⟨e1, e2⟩
  unfold inRect manhattan_distance at hr
  unfold inBounds at hs he ⊢
  dsimp only at hr hs he ⊢
  omega

theorem inRect_e (s e : Pos) : inRect s e e := by
  unfold inRect manhattan_distance
  omega

theorem inRect_s (s e : Pos) : inRect s e s := by
  unfold inRect manhattan_distance
  omega

theorem adjStep_ne (p q : Pos) (h : adjStep p q) : q ≠ p := by
  rcases p with ⟨p1, p2⟩
  rcases q with ⟨q1, q2⟩
  rcases h with h | h | h | h <;> simp_all [Prod.mk.injEq]

theorem setInsert_eq_cons (s : List Pos) (p : Pos) (h : p ∉ s) :
    setInsert s p = p :: s := by
  unfold setInsert
  rw [if_neg h]

theorem mem_setInsert (s : List Pos) (p q : Pos) :
    q ∈ setInsert s p ↔ q = p ∨ q ∈ s := by
  unfold setInsert
  split_ifs with h
  · constructor
    · exact Or.inr
    · rintro (rfl | hq)
      · exact h
      · exact hq
  · simp

theorem mem_setRemove (s : List Pos) (p q : Pos) :
    q ∈ setRemove s p ↔ q ∈ s ∧ q ≠ p := by
  unfold setRemove
  simp

theorem mapInsert_self {β : Type} (m : Pos → Option β) (k : Pos) (v : β) :
    mapInsert m k v k = some v := by
  simp [mapInsert]

theorem mapInsert_other {β : Type} (m : Pos → Option β) (k x : Pos) (v : β)
    (h : x ≠ k) : mapInsert m k v x = m x := by
  simp [mapInsert, h]

theorem processNeighbors_inv_mem (P : AState → Prop) (heuristic : Pos → Pos → Int)
    (e c : Pos) :
    ∀ (l : List Pos),
      (∀ st n, n ∈ l → P st → P (processNeighbor heuristic e c st n)) →
      ∀ st, P st → P (processNeighbors heuristic e c st l) := by
  intro l
  induction l with
  | nil => intro _ st hP; exact hP
  | cons n ns ih =>
    intro hstep st hP
    exact ih (fun s m hm hPs => hstep s m (List.mem_cons_of_mem n hm) hPs) _
      (hstep st n (List.mem_cons_self n ns) hP)

theorem baseInv_fold_step (heuristic : Pos → Pos → Int) (start e current : Pos)
    (gc : Int) (s : AState) (n : Pos)
    (hQB : BaseInv heuristic start e s)
    (hcc : current ∈ s.closedSet)
    (hgcur : s.gScore current = some gc)
    (hbound : gc + 1 ≤ (s.closedSet.length : Int))
    (hadj : adjStep current n) :
    BaseInv heuristic start e (processNeighbor heuristic e current s n) ∧
    (processNeighbor heuristic e current s n).closedSet = s.closedSet ∧
    (processNeighbor heuristic e current s n).gScore current = some gc := by
  have hnc : n ≠ current := adjStep_ne current n hadj
  rcases processNeighbor_cases heuristic e current s n with
    ⟨hn1, hEq⟩ | ⟨hn1, hn2, hEq⟩ | ⟨hn1, hn2, hn3, hEq⟩ | ⟨hn1, hn2, hn3, hEq⟩
  · rw [hEq]; exact ⟨hQB, rfl, hgcur⟩
  · -- newly admitted neighbor
    have hnstart : n ≠ start := fun h => hn1 (h ▸ hQB.start_closed)
    have hnheap : n ∉ heapPos s := fun h => hn2 ((hQB.open_iff_heap n).mpr h)
    have hEc : (processNeighbor heuristic e current s n).closedSet = s.closedSet := by
      rw [hEq]
    have hEo : (processNeighbor heuristic e current s n).openSet =
        setInsert s.openSet n := by rw [hEq]
    have hEcf : (processNeighbor heuristic e current s n).cameFrom =
        mapInsert s.cameFrom n current := by rw [hEq]
    have hEg : (processNeighbor heuristic e current s n).gScore =
        mapInsert s.gScore n (gc + 1) := by
      rw [hEq]
      simp only [hgcur, Option.getD_some]
    have hEh : (processNeighbor heuristic e current s n).heap =
        (heuristic n e, n) :: s.heap := by rw [hEq]
    have hEhp : heapPos (processNeighbor heuristic e current s n) =
        n :: heapPos s := by rw [heapPos, hEh]; rfl
    refine ⟨⟨?_, ?_, ?_, ?_, ?_, ?_, ?_, ?_, ?_, ?_, ?_, ?_, ?_⟩, hEc, ?_⟩
    · intro p
      rw [hEo, hEhp, mem_setInsert, List.mem_cons, hQB.open_iff_heap p]
    · rw [hEhp]
      exact List.nodup_cons.mpr ⟨hnheap, hQB.heap_nodup⟩
    · intro p hp
      rw [hEhp] at hp
      rw [hEc]
      rcases List.mem_cons.mp hp with rfl | hp2
      · exact hn1
      · exact hQB.heap_closed p hp2
    · rw [hEc]
      exact hQB.closed_nodup
    · intro y hy
      rw [hEh] at hy
      rcases List.mem_cons.mp hy with rfl | hy2
      · rfl
      · exact hQB.heap_keys y hy2
    · rw [hEc]
      exact hQB.start_closed
    · rw [hEcf, mapInsert_other _ _ _ _ (fun h => hnstart h.symm)]
      exact hQB.came_start
    · rw [hEg, mapInsert_other _ _ _ _ (fun h => hnstart h.symm)]
      exact hQB.g_start
    · intro m p hm
      rw [hEcf] at hm
      rw [hEc, hEg]
      by_cases hmn : m = n
      · subst hmn
        rw [mapInsert_self] at hm
        obtain rfl := Option.some.inj hm
        refine ⟨hadj, hcc, gc, ?_, ?_⟩
        · rw [mapInsert_other _ _ _ _ (fun h => hnc h.symm)]
          exact hgcur
        · rw [mapInsert_self]
      · rw [mapInsert_other _ _ _ _ hmn] at hm
        obtain ⟨ha, hpc, gp, hgp, hgm⟩ := hQB.came_props m p hm
        have hpn : p ≠ n := fun h => hn1 (h ▸ hpc)
        refine ⟨ha, hpc, gp, ?_, ?_⟩
        · rw [mapInsert_other _ _ _ _ hpn]
          exact hgp
        · rw [mapInsert_other _ _ _ _ hmn]
          exact hgm
    · intro m hm
      rw [hEg] at hm
      rw [hEcf]
      by_cases hmn : m = n
      · subst hmn
        right
        rw [mapInsert_self]
        simp
      · rw [mapInsert_other _ _ _ _ hmn] at hm
        rcases hQB.g_root m hm with h | h
        · exact Or.inl h
        · right
          rw [mapInsert_other _ _ _ _ hmn]
          exact h
    · intro m km hm
      rw [hEg] at hm
      rw [hEc]
      by_cases hmn : m = n
      · subst hmn
        rw [mapInsert_self] at hm
        obtain rfl := Option.some.inj hm
        have h0 := hQB.g_bounds current gc hgcur
        exact ⟨by omega, hbound⟩
      · rw [mapInsert_other _ _ _ _ hmn] at hm
        exact hQB.g_bounds m km hm
    · intro p hp
      rw [hEhp] at hp
      rw [hEg]
      rcases List.mem_cons.mp hp with rfl | hp2
      · rw [mapInsert_self]
        simp
      · by_cases hpn : p = n
        · subst hpn
          rw [mapInsert_self]
          simp
        · rw [mapInsert_other _ _ _ _ hpn]
          exact hQB.heap_g p hp2
    · intro m hm
      rw [hEg] at hm
      rw [hEhp, hEc]
      by_cases hmn : m = n
      · subst hmn
        exact Or.inl (List.mem_cons_self _ _)
      · rw [mapInsert_other _ _ _ _ hmn] at hm
        rcases hQB.g_admitted m hm with h | h
        · exact Or.inl (List.mem_cons_of_mem _ h)
        · exact Or.inr h
    · rw [hEg, mapInsert_other _ _ _ _ (fun h => hnc h.symm)]
      exact hgcur
  · rw [hEq]; exact ⟨hQB, rfl, hgcur⟩
  · -- improved known neighbor
    have hnstart : n ≠ start := fun h => hn1 (h ▸ hQB.start_closed)
    have hEc : (processNeighbor heuristic e current s n).closedSet = s.closedSet := by
      rw [hEq]
    have hEo : (processNeighbor heuristic e current s n).openSet = s.openSet := by
      rw [hEq]
    have hEcf : (processNeighbor heuristic e current s n).cameFrom =
        mapInsert s.cameFrom n current := by rw [hEq]
    have hEg : (processNeighbor heuristic e current s n).gScore =
        mapInsert s.gScore n (gc + 1) := by
      rw [hEq]
      simp only [hgcur, Option.getD_some]
    have hEh : (processNeighbor heuristic e current s n).heap = s.heap := by
      rw [hEq]
    have hEhp : heapPos (processNeighbor heuristic e current s n) = heapPos s := by
      rw [heapPos, hEh]; rfl
    refine ⟨⟨?_, ?_, ?_, ?_, ?_, ?_, ?_, ?_, ?_, ?_, ?_, ?_, ?_⟩, hEc, ?_⟩
    · intro p
      rw [hEo, hEhp, hQB.open_iff_heap p]
    · rw [hEhp]
      exact hQB.heap_nodup
    · intro p hp
      rw [hEhp] at hp
      rw [hEc]
      exact hQB.heap_closed p hp
    · rw [hEc]
      exact hQB.closed_nodup
    · intro y hy
      rw [hEh] at hy
      exact hQB.heap_keys y hy
    · rw [hEc]
      exact hQB.start_closed
    · rw [hEcf, mapInsert_other _ _ _ _ (fun h => hnstart h.symm)]
      exact hQB.came_start
    · rw [hEg, mapInsert_other _ _ _ _ (fun h => hnstart h.symm)]
      exact hQB.g_start
    · intro m p hm
      rw [hEcf] at hm
      rw [hEc, hEg]
      by_cases hmn : m = n
      · subst hmn
        rw [mapInsert_self] at hm
        obtain rfl := Option.some.inj hm
        refine ⟨hadj, hcc, gc, ?_, ?_⟩
        · rw [mapInsert_other _ _ _ _ (fun h => hnc h.symm)]
          exact hgcur
        · rw [mapInsert_self]
      · rw [mapInsert_other _ _ _ _ hmn] at hm
        obtain ⟨ha, hpc, gp, hgp, hgm⟩ := hQB.came_props m p hm
        have hpn : p ≠ n := fun h => hn1 (h ▸ hpc)
        refine ⟨ha, hpc, gp, ?_, ?_⟩
        · rw [mapInsert_other _ _ _ _ hpn]
          exact hgp
        · rw [mapInsert_other _ _ _ _ hmn]
          exact hgm
    · intro m hm
      rw [hEg] at hm
      rw [hEcf]
      by_cases hmn : m = n
      · subst hmn
        right
        rw [mapInsert_self]
        simp
      · rw [mapInsert_other _ _ _ _ hmn] at hm
        rcases hQB.g_root m hm with h | h
        · exact Or.inl h
        · right
          rw [mapInsert_other _ _ _ _ hmn]
          exact h
    · intro m km hm
      rw [hEg] at hm
      rw [hEc]
      by_cases hmn : m = n
      · subst hmn
        rw [mapInsert_self] at hm
        obtain rfl := Option.some.inj hm
        have h0 := hQB.g_bounds current gc hgcur
        exact ⟨by omega, hbound⟩
      · rw [mapInsert_other _ _ _ _ hmn] at hm
        exact hQB.g_bounds m km hm
    · intro p hp
      rw [hEhp] at hp
      rw [hEg]
      by_cases hpn : p = n
      · subst hpn
        rw [mapInsert_self]
        simp
      · rw [mapInsert_other _ _ _ _ hpn]
        exact hQB.heap_g p hp
    · intro m hm
      rw [hEg] at hm
      rw [hEhp, hEc]
      by_cases hmn : m = n
      · subst hmn
        exact Or.inl ((hQB.open_iff_heap m).mp hn2)
      · rw [mapInsert_other _ _ _ _ hmn] at hm
        exact hQB.g_admitted m hm
    · rw [hEg, mapInsert_other _ _ _ _ (fun h => hnc h.symm)]
      exact hgcur

theorem baseInv_popped (heuristic : Pos → Pos → Int)
    (start e : Pos) (st : AState)
    (hB : BaseInv heuristic start e st) (k : Int) (current : Pos)
    (rest : List (Int × Pos)) (hp : popMax st.heap = some ((k, current), rest)) :
    BaseInv heuristic start e
      { st with heap := rest,
                openSet := setRemove st.openSet current,
                closedSet := setInsert st.closedSet current } := by
  have hperm := popMax_perm st.heap _ _ hp
  have hpermPos : (heapPos st).Perm (current :: rest.map Prod.snd) := by
    have h2 := hperm.map Prod.snd
    simpa [heapPos] using h2
  have hcur_heap : current ∈ heapPos st :=
    hpermPos.mem_iff.mpr (List.mem_cons_self _ _)
  have hcur_nc : current ∉ st.closedSet := hB.heap_closed current hcur_heap
  have hclosed1 : setInsert st.closedSet current = current :: st.closedSet :=
    setInsert_eq_cons _ _ hcur_nc
  have hnodup2 : (current :: rest.map Prod.snd).Nodup :=
    hpermPos.nodup_iff.mp hB.heap_nodup
  obtain ⟨hcur_nrest, hrest_nodup⟩ := List.nodup_cons.mp hnodup2
  obtain ⟨gc, hgc⟩ : ∃ gc, st.gScore current = some gc := by
    cases hgv : st.gScore current with
    | none => exact absurd hgv (hB.heap_g current hcur_heap)
    | some v => exact ⟨v, rfl⟩
  obtain ⟨hgc0, hgcb⟩ := hB.g_bounds current gc hgc
  have hsub : ∀ y ∈ rest, y ∈ st.heap := fun y hy =>
    hperm.symm.subset (List.mem_cons_of_mem _ hy)
  have hsubPos : ∀ p ∈ rest.map Prod.snd, p ∈ heapPos st := fun p hp2 =>
    hpermPos.symm.subset (List.mem_cons_of_mem _ hp2)
  rw [hclosed1]
  refine ⟨?_, ?_, ?_, ?_, ?_, ?_, ?_, ?_, ?_, ?_, ?_, ?_, ?_⟩
  · intro p
    show p ∈ setRemove st.openSet current ↔ p ∈ rest.map Prod.snd
    rw [mem_setRemove]
    constructor
    · rintro ⟨ho, hne⟩
      have := hpermPos.mem_iff.mp ((hB.open_iff_heap p).mp ho)
      rcases List.mem_cons.mp this with rfl | h2
      · exact absurd rfl hne
      · exact h2
    · intro hr
      refine ⟨(hB.open_iff_heap p).mpr (hsubPos p hr), ?_⟩
      rintro rfl
      exact hcur_nrest hr
  · exact hrest_nodup
  · intro p hp2
    show p ∉ current :: st.closedSet
    have hne : p ≠ current := by
      rintro rfl
      exact hcur_nrest hp2
    rw [List.mem_cons, not_or]
    exact ⟨hne, hB.heap_closed p (hsubPos p hp2)⟩
  · exact List.nodup_cons.mpr ⟨hcur_nc, hB.closed_nodup⟩
  · intro y hy
    exact hB.heap_keys y (hsub y hy)
  · exact List.mem_cons_of_mem _ hB.start_closed
  · exact hB.came_start
  · exact hB.g_start
  · intro m p hm
    obtain ⟨ha, hpc, gp, hgp, hgm⟩ := hB.came_props m p hm
    exact ⟨ha, List.mem_cons_of_mem _ hpc, gp, hgp, hgm⟩
  · exact hB.g_root
  · intro m km hm
    obtain ⟨h1, h2⟩ := hB.g_bounds m km hm
    refine ⟨h1, ?_⟩
    simp only [List.length_cons]
    push_cast
    omega
  · intro p hp2
    exact hB.heap_g p (hsubPos p hp2)
  · intro m hm
    show m ∈ List.map Prod.snd rest ∨ m ∈ current :: st.closedSet
    rcases hB.g_admitted m hm with h | h
    · rcases List.mem_cons.mp (hpermPos.mem_iff.mp h) with rfl | h2
      · exact Or.inr (List.mem_cons_self _ _)
      · exact Or.inl h2
    · exact Or.inr (List.mem_cons_of_mem _ h)

theorem baseInv_next (grid : GridV) (heuristic : Pos → Pos → Int)
    (sol : Nat → Nat → GridV → Bool) (start e : Pos) (st : AState)
    (hB : BaseInv heuristic start e st) (k : Int) (current : Pos)
    (rest : List (Int × Pos)) (hp : popMax st.heap = some ((k, current), rest)) :
    BaseInv heuristic start e (astarNext grid heuristic sol e current rest st) ∧
    (astarNext grid heuristic sol e current rest st).closedSet =
      current :: st.closedSet := by
  have hperm := popMax_perm st.heap _ _ hp
  have hpermPos : (heapPos st).Perm (current :: rest.map Prod.snd) := by
    have h2 := hperm.map Prod.snd
    simpa [heapPos] using h2
  have hcur_heap : current ∈ heapPos st :=
    hpermPos.mem_iff.mpr (List.mem_cons_self _ _)
  have hcur_nc : current ∉ st.closedSet := hB.heap_closed current hcur_heap
  have hclosed1 : setInsert st.closedSet current = current :: st.closedSet :=
    setInsert_eq_cons _ _ hcur_nc
  obtain ⟨gc, hgc⟩ : ∃ gc, st.gScore current = some gc := by
    cases hgv : st.gScore current with
    | none => exact absurd hgv (hB.heap_g current hcur_heap)
    | some v => exact ⟨v, rfl⟩
  obtain ⟨hgc0, hgcb⟩ := hB.g_bounds current gc hgc
  have hB1 := baseInv_popped heuristic start e st hB k current rest hp
  unfold astarNext
  have hfold := processNeighbors_inv_mem
    (fun s => BaseInv heuristic start e s ∧ s.closedSet = current :: st.closedSet ∧
      s.gScore current = some gc)
    heuristic e current (get_neighbors current.1 current.2 grid sol)
    (by
      intro s n hn hQ
      obtain ⟨hQB, hQc, hQg⟩ := hQ
      have hadj : adjStep current n := get_neighbors_adj grid sol current.1 current.2 n hn
      have hcc : current ∈ s.closedSet := by
        rw [hQc]
        exact List.mem_cons_self _ _
      have hbound : gc + 1 ≤ (s.closedSet.length : Int) := by
        rw [hQc]
        simp only [List.length_cons]
        push_cast
        omega
      obtain ⟨hb1, hb2, hb3⟩ := baseInv_fold_step heuristic start e current gc s n
        hQB hcc hQg hbound hadj
      exact ⟨hb1, hb2.trans hQc, hb3⟩)
    _ ⟨hB1, hclosed1, hgc⟩
  exact ⟨hfold.1, hfold.2.1⟩

theorem astarInitPopped_eq (grid : GridV) (heuristic : Pos → Pos → Int)
    (sol : Nat → Nat → GridV → Bool) (start e : Pos) :
    astarNext grid heuristic sol e start [] (astarInit start e heuristic) =
      processNeighbors heuristic e start
        { closedSet := [start], openSet := [],
          cameFrom := fun _ => none,
          gScore := mapInsert (fun _ => none) start 0,
          fScore := mapInsert (fun _ => none) start (heuristic start e),
          heap := [] }
        (get_neighbors start.1 start.2 grid sol) := by
  unfold astarNext
  rw [show ({ astarInit start e heuristic with
        heap := ([] : List (Int × Pos)),
        openSet := setRemove (astarInit start e heuristic).openSet start,
        closedSet := setInsert (astarInit start e heuristic).closedSet start } : AState) =
      { closedSet := [start], openSet := [],
        cameFrom := fun _ => none,
        gScore := mapInsert (fun _ => none) start 0,
        fScore := mapInsert (fun _ => none) start (heuristic start e),
        heap := [] } from by simp [astarInit, setInsert, setRemove]]

theorem baseInv_init_lit (heuristic : Pos → Pos → Int) (start e : Pos) :
    BaseInv heuristic start e
      { closedSet := [start], openSet := [],
        cameFrom := fun _ => none,
        gScore := mapInsert (fun _ => none) start 0,
        fScore := mapInsert (fun _ => none) start (heuristic start e),
        heap := [] } := by
  refine ⟨?_, ?_, ?_, ?_, ?_, ?_, ?_, ?_, ?_, ?_, ?_, ?_, ?_⟩
  · intro p
    simp [heapPos]
  · simp [heapPos]
  · intro p hp
    simp [heapPos] at hp
  · simp
  · intro y hy
    simp at hy
  · simp
  · rfl
  · show mapInsert (fun _ => none) start 0 start = some 0
    exact mapInsert_self _ _ _
  · intro m p hm
    exact absurd hm (by simp)
  · intro m hm
    by_cases h : m = start
    · exact Or.inl h
    · refine absurd ?_ hm
      show mapInsert (fun _ => none) start 0 m = none
      rw [mapInsert_other _ _ _ _ h]
  · intro m km hm
    have hm2 : mapInsert (fun _ => none) start 0 m = some km := hm
    by_cases h : m = start
    · subst h
      rw [mapInsert_self] at hm2
      obtain rfl := Option.some.inj hm2
      simp
    · rw [mapInsert_other _ _ _ _ h] at hm2
      exact absurd hm2 (by simp)
  · intro p hp
    simp [heapPos] at hp
  · intro m hm
    by_cases h : m = start
    · subst h
      right
      exact List.mem_singleton.mpr rfl
    · exfalso
      apply hm
      show mapInsert (fun _ => none) start 0 m = none
      rw [mapInsert_other _ _ _ _ h]

theorem baseInv_first (grid : GridV) (heuristic : Pos → Pos → Int)
    (sol : Nat → Nat → GridV → Bool) (start e : Pos) :
    BaseInv heuristic start e
      (astarNext grid heuristic sol e start [] (astarInit start e heuristic)) ∧
    (astarNext grid heuristic sol e start [] (astarInit start e heuristic)).closedSet =
      [start] := by
  rw [astarInitPopped_eq]
  have hfold := processNeighbors_inv_mem
    (fun s => BaseInv heuristic start e s ∧ s.closedSet = [start])
    heuristic e start (get_neighbors start.1 start.2 grid sol)
    (by
      intro s n hn hQ
      obtain ⟨hQB, hQc⟩ := hQ
      have hadj : adjStep start n := get_neighbors_adj grid sol start.1 start.2 n hn
      have hbound : (0 : Int) + 1 ≤ (s.closedSet.length : Int) := by
        rw [hQc]
        simp
      obtain ⟨hb1, hb2, -⟩ := baseInv_fold_step heuristic start e start 0 s n
        hQB hQB.start_closed hQB.g_start hbound hadj
      exact ⟨hb1, hb2.trans hQc⟩)
    _ ⟨baseInv_init_lit heuristic start e, rfl⟩
  exact ⟨hfold.1, hfold.2⟩

theorem chain_exists (heuristic : Pos → Pos → Int) (start e : Pos) (st : AState)
    (hB : BaseInv heuristic start e st) :
    ∀ (k : Nat) (n : Pos), st.gScore n = some (k : Int) →
      ∃ l : List Pos, parentChain st.cameFrom n l ∧ l.length = k ∧
        List.Chain' (fun a b => adjStep b a) (n :: l) ∧
        (n :: l).getLast? = some start := by
  intro k
  induction k using Nat.strong_induction_on with
  | _ k ih =>
    intro n hg
    cases hcf : st.cameFrom n with
    | none =>
      have hstart : n = start := by
        rcases hB.g_root n (by rw [hg]; simp) with h | h
        · exact h
        · exact absurd hcf h
      subst hstart
      have hz : ((k : Int)) = 0 := by
        have h2 := hB.g_start
        rw [hg] at h2
        exact Option.some.inj h2
      have hk0 : k = 0 := by exact_mod_cast hz
      subst hk0
      exact ⟨[], hcf, rfl, List.chain'_singleton n, by simp⟩
    | some q =>
      obtain ⟨hadj, hqc, gq, hgq, hgn⟩ := hB.came_props n q hcf
      have heq : (k : Int) = gq + 1 := by
        rw [hg] at hgn
        exact Option.some.inj hgn
      have hgq0 : 0 ≤ gq := (hB.g_bounds q gq hgq).1
      have hklt : gq.toNat < k := by omega
      have hgq2 : st.gScore q = some ((gq.toNat : Nat) : Int) := by
        rw [hgq]
        congr 1
        omega
      obtain ⟨l, hpc, hlen, hch, hlast⟩ := ih gq.toNat hklt q hgq2
      have hlen2 : (q :: l).length = k := by
        simp only [List.length_cons, hlen]
        omega
      refine ⟨q :: l, ⟨hcf, hpc⟩, hlen2, ?_, ?_⟩
      · rw [List.chain'_cons]
        exact ⟨hadj, hch⟩
      · rw [List.getLast?_cons_cons]
        exact hlast

theorem astarLoop_found_props (grid : GridV) (heuristic : Pos → Pos → Int)
    (sol : Nat → Nat → GridV → Bool) (start e : Pos) (rf : Nat) :
    ∀ (fuel : Nat) (st : AState), BaseInv heuristic start e st →
      st.closedSet.length + fuel ≤ rf →
      ∀ p, astarLoop grid heuristic sol e rf fuel st = some (some p) →
        p.head? = some start ∧ p.getLast? = some e ∧ List.Chain' adjStep p := by
  intro fuel
  induction fuel with
  | zero =>
    intro st _ _ p hrun
    simp [astarLoop] at hrun
  | succ f ih =>
    intro st hB hfuel p hrun
    rw [astarLoop] at hrun
    cases hp : popMax st.heap with
    | none =>
      rw [astarStep, hp] at hrun
      simp at hrun
    | some pr =>
      obtain ⟨⟨k, current⟩, rest⟩ := pr
      simp only [astarStep, hp] at hrun
      by_cases hce : current = e
      · rw [if_pos hce] at hrun
        simp only [Option.some.injEq] at hrun
        have hmem : current ∈ heapPos st := by
          have hperm := popMax_perm st.heap _ _ hp
          have h2 := hperm.map Prod.snd
          exact (by simpa [heapPos] using h2 : (heapPos st).Perm _).mem_iff.mpr
            (List.mem_cons_self _ _)
        obtain ⟨ke, hke⟩ : ∃ ke, st.gScore current = some ke := by
          cases hgv : st.gScore current with
          | none => exact absurd hgv (hB.heap_g current hmem)
          | some v => exact ⟨v, rfl⟩
        obtain ⟨hke0, hkeb⟩ := hB.g_bounds current ke hke
        have hke2 : st.gScore current = some ((ke.toNat : Nat) : Int) := by
          rw [hke]
          congr 1
          omega
        obtain ⟨l, hpc, hlen, hch, hlast⟩ := chain_exists heuristic start e st hB
          ke.toNat current hke2
        have hlf : l.length ≤ rf := by
          have h3 : (ke : Int) ≤ st.closedSet.length := hkeb
          omega
        have hrec : reconstruct_path rf st.cameFrom current = (current :: l).reverse := by
          unfold reconstruct_path
          rw [reconstructAux_chain st.cameFrom l current [current] rf hpc hlf]
          rfl
        rw [← hrun, hrec]
        refine ⟨?_, ?_, ?_⟩
        · rw [List.head?_reverse]
          exact hlast
        · rw [List.getLast?_reverse, ← hce]
          rfl
        · rw [List.chain'_reverse]
          exact hch
      · rw [if_neg hce] at hrun
        obtain ⟨hB2, hcl2⟩ := baseInv_next grid heuristic sol start e st hB k current rest hp
        have hfuel2 : (astarNext grid heuristic sol e current rest st).closedSet.length + f ≤ rf := by
          rw [hcl2]
          simp only [List.length_cons]
          omega
        exact ih _ hB2 hfuel2 p hrun

/-- C4: whenever `astar` returns a present path, its first element is
`start`, its last element is `end`, and every pair of consecutive positions
differs by exactly one orthogonal unit step (no diagonal or longer steps).
This holds for every grid, heuristic and solidity predicate. -/
theorem astar_path_endpoints (start e : Pos) (grid : GridV)
    (heuristic : Pos → Pos → Int) (sol : Nat → Nat → GridV → Bool) (p : List Pos)
    (h : astar start e grid heuristic sol = some (some p)) :
    p.head? = some start ∧ p.getLast? = some e ∧ List.Chain' adjStep p := by
  unfold astar astarFuel at h
  by_cases hse : start = e
  · subst hse
    simp only [astarLoop, astarStep, astarInit, popMax, reconstruct_path,
      reconstructAux, if_pos] at h
    simp only [Option.some.injEq] at h
    rw [← h]
    exact ⟨rfl, rfl, List.chain'_singleton start⟩
  · rw [astarLoop] at h
    rw [show astarStep grid heuristic sol e
        (grid.length * (grid.headD []).length + 1) (astarInit start e heuristic) =
        StepOut.next (astarNext grid heuristic sol e start []
          (astarInit start e heuristic)) from by
      rw [astarStep]
      rw [show popMax (astarInit start e heuristic).heap =
        some ((heuristic start e, start), []) from rfl]
      simp only [if_neg hse]] at h
    obtain ⟨hB, hcl⟩ := baseInv_first grid heuristic sol start e
    have hfuel : (astarNext grid heuristic sol e start []
        (astarInit start e heuristic)).closedSet.length +
        grid.length * (grid.headD []).length ≤
        grid.length * (grid.headD []).length + 1 := by
      rw [hcl]
      simp only [List.length_cons, List.length_nil]
      omega
    exact astarLoop_found_props grid heuristic sol start e
      (grid.length * (grid.headD []).length + 1)
      (grid.length * (grid.headD []).length) _ hB hfuel p h

/-- Witness for C4 on a concrete successful run: the doctest grid's path
starts at (1,1), ends at (1,3) and is an orthogonal unit-step chain. -/
theorem astar_path_endpoints_witness :
    ([(1, 1), (2, 1), (3, 1), (3, 2), (3, 3), (2, 3), (1, 3)] : List Pos).head? =
      some (1, 1) ∧
    ([(1, 1), (2, 1), (3, 1), (3, 2), (3, 3), (2, 3), (1, 3)] : List Pos).getLast? =
      some (1, 3) ∧
    List.Chain' adjStep [(1, 1), (2, 1), (3, 1), (3, 2), (3, 3), (2, 3), (1, 3)] :=
  astar_path_endpoints (1, 1) (1, 3)
    [[1, 1, 1, 1, 1], [1, 0, 1, 0, 1], [1, 0, 1, 0, 1], [1, 0, 0, 0, 1], [1, 1, 1, 1, 1]]
    manhattan_distance isOneSolid
    [(1, 1), (2, 1), (3, 1), (3, 2), (3, 3), (2, 3), (1, 3)] (by decide)

theorem processNeighbor_heap_mono (heuristic : Pos → Pos → Int) (e c : Pos)
    (s : AState) (n : Pos) (p : Pos) (hp : p ∈ heapPos s) :
    p ∈ heapPos (processNeighbor heuristic e c s n) := by
  rcases processNeighbor_cases heuristic e c s n with
    ⟨-, hEq⟩ | ⟨-, -, hEq⟩ | ⟨-, -, -, hEq⟩ | ⟨-, -, -, hEq⟩ <;> rw [hEq]
  · exact hp
  · simp only [heapPos, List.map_cons]
    exact List.mem_cons_of_mem _ hp
  · exact hp
  · exact hp

theorem processNeighbor_closed_const (heuristic : Pos → Pos → Int) (e c : Pos)
    (s : AState) (n : Pos) :
    (processNeighbor heuristic e c s n).closedSet = s.closedSet := by
  rcases processNeighbor_cases heuristic e c s n with
    ⟨-, hEq⟩ | ⟨-, -, hEq⟩ | ⟨-, -, -, hEq⟩ | ⟨-, -, -, hEq⟩ <;> rw [hEq]

theorem processNeighbors_heap_mono (heuristic : Pos → Pos → Int) (e c : Pos) :
    ∀ (l : List Pos) (s : AState) (p : Pos), p ∈ heapPos s →
      p ∈ heapPos (processNeighbors heuristic e c s l) := by
  intro l
  induction l with
  | nil => intro s p hp; exact hp
  | cons n ns ih =>
    intro s p hp
    exact ih _ p (processNeighbor_heap_mono heuristic e c s n p hp)

theorem processNeighbors_closed_const (heuristic : Pos → Pos → Int) (e c : Pos) :
    ∀ (l : List Pos) (s : AState),
      (processNeighbors heuristic e c s l).closedSet = s.closedSet := by
  intro l
  induction l with
  | nil => intro s; rfl
  | cons n ns ih =>
    intro s
    rw [show processNeighbors heuristic e c s (n :: ns) =
      processNeighbors heuristic e c (processNeighbor heuristic e c s n) ns from rfl]
    rw [ih _, processNeighbor_closed_const]

theorem processNeighbors_heapPos_sub (heuristic : Pos → Pos → Int) (e c : Pos) :
    ∀ (l : List Pos) (s : AState) (p : Pos),
      p ∈ heapPos (processNeighbors heuristic e c s l) →
      p ∈ heapPos s ∨ p ∈ l := by
  intro l
  induction l with
  | nil => intro s p hp; exact Or.inl hp
  | cons n ns ih =>
    intro s p hp
    rcases ih _ p hp with h | h
    · rcases processNeighbor_cases heuristic e c s n with
        ⟨-, hEq⟩ | ⟨-, -, hEq⟩ | ⟨-, -, -, hEq⟩ | ⟨-, -, -, hEq⟩ <;> rw [hEq] at h
      · exact Or.inl h
      · simp only [heapPos, List.map_cons, List.mem_cons] at h
        rcases h with rfl | h2
        · exact Or.inr (List.mem_cons_self _ _)
        · exact Or.inl h2
      · exact Or.inl h
      · exact Or.inl h
    · exact Or.inr (List.mem_cons_of_mem _ h)

theorem processNeighbors_admits (heuristic : Pos → Pos → Int) (start e c : Pos)
    (gc : Int) :
    ∀ (l : List Pos) (s : AState), BaseInv heuristic start e s →
      c ∈ s.closedSet → s.gScore c = some gc →
      gc + 1 ≤ (s.closedSet.length : Int) →
      (∀ m ∈ l, adjStep c m) →
      ∀ n ∈ l, n ∈ heapPos (processNeighbors heuristic e c s l) ∨
        n ∈ (processNeighbors heuristic e c s l).closedSet := by
  intro l
  induction l with
  | nil => intro s _ _ _ _ _ n hn; exact absurd hn (List.not_mem_nil n)
  | cons m ms ih =>
    intro s hB hcc hgc hbound hadj n hn
    rw [show processNeighbors heuristic e c s (m :: ms) =
      processNeighbors heuristic e c (processNeighbor heuristic e c s m) ms from rfl]
    obtain ⟨hB2, hc2, hg2⟩ := baseInv_fold_step heuristic start e c gc s m hB hcc hgc
      hbound (hadj m (List.mem_cons_self _ _))
    rcases List.mem_cons.mp hn with rfl | hn2
    · -- n = m : admitted right after its own step
      have hadm : n ∈ heapPos (processNeighbor heuristic e c s n) ∨
          n ∈ (processNeighbor heuristic e c s n).closedSet := by
        rcases processNeighbor_cases heuristic e c s n with
          ⟨h1, hEq⟩ | ⟨h1, h2, hEq⟩ | ⟨h1, h2, h3, hEq⟩ | ⟨h1, h2, h3, hEq⟩ <;> rw [hEq]
        · exact Or.inr h1
        · left
          simp [heapPos]
        · exact Or.inl ((hB.open_iff_heap n).mp h2)
        · exact Or.inl ((hB.open_iff_heap n).mp h2)
      rcases hadm with h | h
      · exact Or.inl (processNeighbors_heap_mono heuristic e c ms _ n h)
      · right
        rw [processNeighbors_closed_const]
        exact h
    · exact ih _ hB2 (hc2 ▸ hcc) (hg2) (by rw [hc2]; exact hbound)
        (fun q hq => hadj q (List.mem_cons_of_mem _ hq)) n hn2

theorem setInv_next (grid : GridV) (heuristic : Pos → Pos → Int)
    (sol : Nat → Nat → GridV → Bool) (start e : Pos)
    (hH : grid.length < 2 ^ 31) (hW : (grid.headD []).length < 2 ^ 31)
    (st : AState) (hB : BaseInv heuristic start e st)
    (hS : SetInv grid sol start e st) (k : Int) (current : Pos)
    (rest : List (Int × Pos)) (hp : popMax st.heap = some ((k, current), rest))
    (hce : current ≠ e) :
    SetInv grid sol start e (astarNext grid heuristic sol e current rest st) := by
  have hperm := popMax_perm st.heap _ _ hp
  have hpermPos : (heapPos st).Perm (current :: rest.map Prod.snd) := by
    have h2 := hperm.map Prod.snd
    simpa [heapPos] using h2
  have hcur_heap : current ∈ heapPos st :=
    hpermPos.mem_iff.mpr (List.mem_cons_self _ _)
  have hcur_nc : current ∉ st.closedSet := hB.heap_closed current hcur_heap
  have hcur_b : inBounds grid current := hS.mem_bounds current (Or.inl hcur_heap)
  have hclosed1 : setInsert st.closedSet current = current :: st.closedSet :=
    setInsert_eq_cons _ _ hcur_nc
  obtain ⟨gc, hgc⟩ : ∃ gc, st.gScore current = some gc := by
    cases hgv : st.gScore current with
    | none => exact absurd hgv (hB.heap_g current hcur_heap)
    | some v => exact ⟨v, rfl⟩
  obtain ⟨hgc0, hgcb⟩ := hB.g_bounds current gc hgc
  have hB1 := baseInv_popped heuristic start e st hB k current rest hp
  have hsubPos : ∀ p ∈ rest.map Prod.snd, p ∈ heapPos st := fun p hp2 =>
    hpermPos.symm.subset (List.mem_cons_of_mem _ hp2)
  have hcurpair : ((current.1, current.2) : Pos) = current := rfl
  have hnl : ∀ n ∈ get_neighbors current.1 current.2 grid sol,
      adjStep current n ∧ inBounds grid n ∧ solAt sol grid n = false := by
    intro n hn
    have h2 := (mem_get_neighbors grid sol current.1 current.2 hH hW
      (by rw [hcurpair]; exact hcur_b) n).mp hn
    rw [hcurpair] at h2
    exact h2
  have hclosed_fin : (astarNext grid heuristic sol e current rest st).closedSet =
      current :: st.closedSet := by
    unfold astarNext
    rw [processNeighbors_closed_const]
    exact hclosed1
  have hheap_fin : ∀ p ∈ heapPos (astarNext grid heuristic sol e current rest st),
      p ∈ rest.map Prod.snd ∨ p ∈ get_neighbors current.1 current.2 grid sol := by
    intro p hp2
    unfold astarNext at hp2
    rcases processNeighbors_heapPos_sub heuristic e current _ _ p hp2 with h | h
    · exact Or.inl h
    · exact Or.inr h
  refine ⟨?_, ?_, ?_, ?_⟩
  · intro p hp2
    rcases hp2 with h | h
    · rcases hheap_fin p h with h2 | h2
      · exact hS.mem_bounds p (Or.inl (hsubPos p h2))
      · exact (hnl p h2).2.1
    · rw [hclosed_fin] at h
      rcases List.mem_cons.mp h with rfl | h2
      · exact hcur_b
      · exact hS.mem_bounds p (Or.inr h2)
  · intro p hp2
    rcases hp2 with h | h
    · rcases hheap_fin p h with h2 | h2
      · exact hS.mem_free p (Or.inl (hsubPos p h2))
      · exact Or.inr (hnl p h2).2.2
    · rw [hclosed_fin] at h
      rcases List.mem_cons.mp h with rfl | h2
      · exact hS.mem_free p (Or.inl hcur_heap)
      · exact hS.mem_free p (Or.inr h2)
  · intro c hc p hp2
    rw [hclosed_fin] at hc
    rcases List.mem_cons.mp hc with rfl | hc2
    · -- c = current : every neighbor is admitted by the fold
      have hadm := processNeighbors_admits heuristic start e c gc
        (get_neighbors c.1 c.2 grid sol)
        { st with heap := rest,
                  openSet := setRemove st.openSet c,
                  closedSet := setInsert st.closedSet c }
        hB1
        (by
          show c ∈ setInsert st.closedSet c
          rw [hclosed1]
          exact List.mem_cons_self _ _)
        hgc
        (by
          show gc + 1 ≤ ((setInsert st.closedSet c).length : Int)
          rw [hclosed1]
          simp only [List.length_cons]
          push_cast
          omega)
        (fun m hm => (hnl m hm).1)
        p hp2
      rw [show processNeighbors heuristic e c
          { st with heap := rest,
                    openSet := setRemove st.openSet c,
                    closedSet := setInsert st.closedSet c }
          (get_neighbors c.1 c.2 grid sol) =
          astarNext grid heuristic sol e c rest st from rfl] at hadm
      rw [hclosed_fin]
      rcases hadm with h | h
      · exact Or.inl h
      · rw [hclosed_fin] at h
        exact Or.inr h
    · -- c was closed before
      rcases hS.closed_nbrs c hc2 p hp2 with h | h
      · rcases List.mem_cons.mp (hpermPos.mem_iff.mp h) with rfl | h2
        · right
          rw [hclosed_fin]
          exact List.mem_cons_self _ _
        · left
          unfold astarNext
          exact processNeighbors_heap_mono heuristic e current _ _ p h2
      · right
        rw [hclosed_fin]
        exact List.mem_cons_of_mem _ h
  · rw [hclosed_fin]
    rw [List.mem_cons, not_or]
    exact ⟨fun h => hce h.symm, hS.e_not_closed⟩

theorem setInv_first (grid : GridV) (heuristic : Pos → Pos → Int)
    (sol : Nat → Nat → GridV → Bool) (start e : Pos)
    (hH : grid.length < 2 ^ 31) (hW : (grid.headD []).length < 2 ^ 31)
    (hstart : inBounds grid start) (hse : start ≠ e) :
    SetInv grid sol start e
      (astarNext grid heuristic sol e start [] (astarInit start e heuristic)) := by
  have hcl := (baseInv_first grid heuristic sol start e).2
  have hstartpair : ((start.1, start.2) : Pos) = start := rfl
  have hnl : ∀ n ∈ get_neighbors start.1 start.2 grid sol,
      adjStep start n ∧ inBounds grid n ∧ solAt sol grid n = false := by
    intro n hn
    have h2 := (mem_get_neighbors grid sol start.1 start.2 hH hW
      (by rw [hstartpair]; exact hstart) n).mp hn
    rw [hstartpair] at h2
    exact h2
  have hheap_fin : ∀ p ∈ heapPos
      (astarNext grid heuristic sol e start [] (astarInit start e heuristic)),
      p ∈ get_neighbors start.1 start.2 grid sol := by
    intro p hp2
    rw [astarInitPopped_eq] at hp2
    rcases processNeighbors_heapPos_sub heuristic e start _ _ p hp2 with h | h
    · simp [heapPos] at h
    · exact h
  refine ⟨?_, ?_, ?_, ?_⟩
  · intro p hp2
    rcases hp2 with h | h
    · exact (hnl p (hheap_fin p h)).2.1
    · rw [hcl] at h
      rcases List.mem_singleton.mp h with rfl
      exact hstart
  · intro p hp2
    rcases hp2 with h | h
    · exact Or.inr (hnl p (hheap_fin p h)).2.2
    · rw [hcl] at h
      rcases List.mem_singleton.mp h with rfl
      exact Or.inl rfl
  · intro c hc p hp2
    rw [hcl] at hc
    rcases List.mem_singleton.mp hc with rfl
    have hadm := processNeighbors_admits heuristic c e c 0
      (get_neighbors c.1 c.2 grid sol)
      { closedSet := [c], openSet := [],
        cameFrom := fun _ => none,
        gScore := mapInsert (fun _ => none) c 0,
        fScore := mapInsert (fun _ => none) c (heuristic c e),
        heap := [] }
      (baseInv_init_lit heuristic c e)
      (List.mem_singleton.mpr rfl)
      (by
        show mapInsert (fun _ => none) c 0 c = some 0
        exact mapInsert_self _ _ _)
      (by simp)
      (fun m hm => (hnl m hm).1)
      p hp2
    rw [← astarInitPopped_eq] at hadm
    exact hadm
  · rw [hcl]
    rw [List.mem_singleton]
    exact fun h => hse h.symm

theorem adjStep_symm (p q : Pos) (h : adjStep p q) : adjStep q p := by
  rcases p with ⟨p1, p2⟩
  rcases q with ⟨q1, q2⟩
  unfold adjStep at h ⊢
  simp only [Prod.mk.injEq] at h ⊢
  omega

theorem nodup_inBounds_length_le (grid : GridV) (l : List Pos) (hnd : l.Nodup)
    (hb : ∀ p ∈ l, inBounds grid p) :
    l.length ≤ grid.length * (grid.headD []).length := by
  classical
  have hsub : l.toFinset ⊆ Finset.image
      (fun rc : Nat × Nat => ((rc.1 : Int), (rc.2 : Int)))
      (Finset.range grid.length ×ˢ Finset.range (grid.headD []).length) := by
    intro x hx
    have hbx := hb x (List.mem_toFinset.mp hx)
    obtain ⟨h1, h2, h3, h4⟩ := hbx
    rw [Finset.mem_image]
    refine ⟨(x.1.toNat, x.2.toNat), ?_, ?_⟩
    · rw [Finset.mem_product, Finset.mem_range, Finset.mem_range]
      constructor <;> simp only <;> omega
    · rcases x with ⟨x1, x2⟩
      simp only [Prod.mk.injEq]
      simp only at h1 h2 h3 h4
      constructor <;> omega
  have hc1 : l.toFinset.card = l.length := List.toFinset_card_of_nodup hnd
  have hc2 := Finset.card_le_card hsub
  have hc3 : (Finset.image (fun rc : Nat × Nat => ((rc.1 : Int), (rc.2 : Int)))
      (Finset.range grid.length ×ˢ Finset.range (grid.headD []).length)).card ≤
      (Finset.range grid.length ×ˢ Finset.range (grid.headD []).length).card :=
    Finset.card_image_le
  rw [Finset.card_product, Finset.card_range, Finset.card_range] at hc3
  omega

theorem astarLoop_ne_none (grid : GridV) (heuristic : Pos → Pos → Int)
    (sol : Nat → Nat → GridV → Bool) (start e : Pos) (rf : Nat)
    (hH : grid.length < 2 ^ 31) (hW : (grid.headD []).length < 2 ^ 31) :
    ∀ (fuel : Nat) (st : AState), BaseInv heuristic start e st →
      SetInv grid sol start e st →
      grid.length * (grid.headD []).length < st.closedSet.length + fuel →
      astarLoop grid heuristic sol e rf fuel st ≠ none := by
  intro fuel
  induction fuel with
  | zero =>
    intro st hB hS hcard
    have hle := nodup_inBounds_length_le grid st.closedSet hB.closed_nodup
      (fun p hp => hS.mem_bounds p (Or.inr hp))
    omega
  | succ f ih =>
    intro st hB hS hcard
    rw [astarLoop]
    cases hp : popMax st.heap with
    | none =>
      simp [astarStep, hp]
    | some pr =>
      obtain ⟨⟨k, current⟩, rest⟩ := pr
      simp only [astarStep, hp]
      by_cases hce : current = e
      · rw [if_pos hce]
        simp
      · rw [if_neg hce]
        obtain ⟨hB2, hcl2⟩ := baseInv_next grid heuristic sol start e st hB k current rest hp
        have hS2 := setInv_next grid heuristic sol start e hH hW st hB hS k current rest hp hce
        apply ih _ hB2 hS2
        rw [hcl2]
        simp only [List.length_cons]
        omega

theorem astarLoop_enclosed (grid : GridV) (heuristic : Pos → Pos → Int)
    (sol : Nat → Nat → GridV → Bool) (start e : Pos) (rf : Nat)
    (hH : grid.length < 2 ^ 31) (hW : (grid.headD []).length < 2 ^ 31)
    (hencl : ∀ c : Pos, adjStep e c → inBounds grid c → solAt sol grid c = true)
    (hnadj : ¬adjStep start e) :
    ∀ (fuel : Nat) (st : AState), BaseInv heuristic start e st →
      SetInv grid sol start e st → e ∉ heapPos st →
      grid.length * (grid.headD []).length < st.closedSet.length + fuel →
      astarLoop grid heuristic sol e rf fuel st = some none := by
  intro fuel
  induction fuel with
  | zero =>
    intro st hB hS _ hcard
    have hle := nodup_inBounds_length_le grid st.closedSet hB.closed_nodup
      (fun p hp => hS.mem_bounds p (Or.inr hp))
    omega
  | succ f ih =>
    intro st hB hS heh hcard
    rw [astarLoop]
    cases hp : popMax st.heap with
    | none =>
      simp [astarStep, hp]
    | some pr =>
      obtain ⟨⟨k, current⟩, rest⟩ := pr
      have hperm := popMax_perm st.heap _ _ hp
      have hpermPos : (heapPos st).Perm (current :: rest.map Prod.snd) := by
        have h2 := hperm.map Prod.snd
        simpa [heapPos] using h2
      have hcur_heap : current ∈ heapPos st :=
        hpermPos.mem_iff.mpr (List.mem_cons_self _ _)
      have hce : current ≠ e := by
        rintro rfl
        exact heh hcur_heap
      simp only [astarStep, hp, if_neg hce]
      obtain ⟨hB2, hcl2⟩ := baseInv_next grid heuristic sol start e st hB k current rest hp
      have hS2 := setInv_next grid heuristic sol start e hH hW st hB hS k current rest hp hce
      apply ih _ hB2 hS2
      · -- e still not in the heap
        intro he2
        unfold astarNext at he2
        rcases processNeighbors_heapPos_sub heuristic e current _ _ e he2 with h | h
        · exact heh (hpermPos.symm.subset (List.mem_cons_of_mem _ (by
            show e ∈ rest.map Prod.snd
            simpa [heapPos] using h)))
        · have hadj : adjStep current e := by
            have h2 := get_neighbors_adj grid sol current.1 current.2 e h
            exact h2
          rcases hS.mem_free current (Or.inl hcur_heap) with rfl | hfree
          · exact hnadj hadj
          · have hcb : inBounds grid current := hS.mem_bounds current (Or.inl hcur_heap)
            have := hencl current (adjStep_symm current e hadj) hcb
            rw [hfree] at this
            exact Bool.false_ne_true this
      · rw [hcl2]
        simp only [List.length_cons]
        omega

theorem astarLoop_none_reaches (grid : GridV) (heuristic : Pos → Pos → Int)
    (sol : Nat → Nat → GridV → Bool) (e : Pos) (rf : Nat) :
    ∀ (fuel : Nat) (st : AState),
      astarLoop grid heuristic sol e rf fuel st = some none →
      ∃ st', Relation.ReflTransGen
        (fun s s' => astarStep grid heuristic sol e rf s = StepOut.next s') st st' ∧
        st'.heap = [] := by
  intro fuel
  induction fuel with
  | zero =>
    intro st h
    simp [astarLoop] at h
  | succ f ih =>
    intro st h
    rw [astarLoop] at h
    cases hstep : astarStep grid heuristic sol e rf st with
    | exhausted =>
      refine ⟨st, Relation.ReflTransGen.refl, ?_⟩
      unfold astarStep at hstep
      cases hp : popMax st.heap with
      | none => exact (popMax_eq_none st.heap).mp hp
      | some pr =>
        obtain ⟨⟨k, current⟩, rest⟩ := pr
        rw [hp] at hstep
        by_cases hce : current = e
        · simp only [if_pos hce] at hstep
          exact StepOut.noConfusion hstep
        · simp only [if_neg hce] at hstep
          exact StepOut.noConfusion hstep
    | found p =>
      rw [hstep] at h
      simp at h
    | next st2 =>
      rw [hstep] at h
      obtain ⟨st', hr, hh⟩ := ih st2 h
      exact ⟨st', Relation.ReflTransGen.head hstep hr, hh⟩

/-- C5 counterexample: on the 3×3 grid whose only free cell is the center
(1,1), every orthogonal neighbor of end=(1,1) is solid, yet `astar` from the
solid, adjacent start (0,1) returns the present path [(0,1), (1,1)] — not
an absent result.  The popped start is never solidity-checked, so it hands
the enclosed end to the open set. -/
theorem astar_enclosed_end_counterexample :
    solAt isOneSolid [[1, 1, 1], [1, 0, 1], [1, 1, 1]] (0, 1) = true ∧
    solAt isOneSolid [[1, 1, 1], [1, 0, 1], [1, 1, 1]] (1, 0) = true ∧
    solAt isOneSolid [[1, 1, 1], [1, 0, 1], [1, 1, 1]] (2, 1) = true ∧
    solAt isOneSolid [[1, 1, 1], [1, 0, 1], [1, 1, 1]] (1, 2) = true ∧
    astar (0, 1) (1, 1) [[1, 1, 1], [1, 0, 1], [1, 1, 1]] manhattan_distance
      isOneSolid = some (some [(0, 1), (1, 1)]) := by
  exact ⟨by decide, by decide, by decide, by decide, by decide⟩

/-- C5 amended: if every in-bounds orthogonal neighbor of `end` is solid,
`start` is in bounds, `start ≠ end`, and `start` is not itself orthogonally
adjacent to `end` (the two counterexample cases), then `astar` returns the
absent result; moreover — for all inputs — an absent result is produced
solely by running the loop until the priority structure is exhausted
(a chain of `next` steps ending in a state with an empty heap). -/
theorem astar_enclosed_end_absent (grid : GridV) (heuristic : Pos → Pos → Int)
    (sol : Nat → Nat → GridV → Bool) (start e : Pos)
    (hH : grid.length < 2 ^ 31) (hW : (grid.headD []).length < 2 ^ 31)
    (hstart : inBounds grid start) (hse : start ≠ e) (hnadj : ¬adjStep start e)
    (hencl : ∀ c : Pos, adjStep e c → inBounds grid c → solAt sol grid c = true) :
    astar start e grid heuristic sol = some none ∧
    ∀ (start' e' : Pos) (grid' : GridV) (heuristic' : Pos → Pos → Int)
      (sol' : Nat → Nat → GridV → Bool),
      astar start' e' grid' heuristic' sol' = some none →
      ∃ st', Relation.ReflTransGen
        (fun s s' => astarStep grid' heuristic' sol' e' (astarFuel grid') s =
          StepOut.next s') (astarInit start' e' heuristic') st' ∧
        st'.heap = [] := by
  constructor
  · unfold astar astarFuel
    rw [astarLoop]
    rw [show astarStep grid heuristic sol e
        (grid.length * (grid.headD []).length + 1) (astarInit start e heuristic) =
        StepOut.next (astarNext grid heuristic sol e start []
          (astarInit start e heuristic)) from by
      rw [astarStep]
      rw [show popMax (astarInit start e heuristic).heap =
        some ((heuristic start e, start), []) from rfl]
      simp only [if_neg hse]]
    have hB := (baseInv_first grid heuristic sol start e).1
    have hcl := (baseInv_first grid heuristic sol start e).2
    have hS := setInv_first grid heuristic sol start e hH hW hstart hse
    have heh : e ∉ heapPos (astarNext grid heuristic sol e start []
        (astarInit start e heuristic)) := by
      intro he
      rw [astarInitPopped_eq] at he
      rcases processNeighbors_heapPos_sub heuristic e start _ _ e he with h | h
      · simp [heapPos] at h
      · exact hnadj (get_neighbors_adj grid sol start.1 start.2 e h)
    apply astarLoop_enclosed grid heuristic sol start e
      (grid.length * (grid.headD []).length + 1) hH hW hencl hnadj
      (grid.length * (grid.headD []).length) _ hB hS heh
    rw [hcl]
    simp only [List.length_cons, List.length_nil]
    omega
  · intro s' e' g' h' sol' hrun
    exact astarLoop_none_reaches g' h' sol' e' (astarFuel g') (astarFuel g')
      (astarInit s' e' h') hrun

/-- Witness for C5's amended theorem: start (0,0), end (2,2) enclosed by
solid cells on a 4×4 grid — the result is absent. -/
theorem astar_enclosed_end_absent_witness :
    astar (0, 0) (2, 2) [[0, 0, 0, 0], [0, 1, 1, 1], [0, 1, 0, 1], [0, 1, 1, 1]]
      manhattan_distance isOneSolid = some none :=
  (astar_enclosed_end_absent
    [[0, 0, 0, 0], [0, 1, 1, 1], [0, 1, 0, 1], [0, 1, 1, 1]]
    manhattan_distance isOneSolid (0, 0) (2, 2)
    (by decide) (by decide) (by decide) (by decide)
    (by intro h; rcases h with h | h | h | h <;> simp at h)
    (by
      intro c hc
      rcases hc with h | h | h | h <;> subst h <;> decide)).1

theorem stair_inBounds (grid : GridV) (s n : Pos) (hs : inBounds grid s)
    (hn : inBounds grid n) (hne : n ≠ s) : inBounds grid (stair s n) := by
  rcases n with ⟨n1, n2⟩
  rcases s with ⟨s1, s2⟩
  have hne2 : n1 ≠ s1 ∨ n2 ≠ s2 := by
    by_contra h
    push_neg at h
    exact hne (by rw [h.1, h.2])
  obtain ⟨a1, a2, a3, a4⟩ := hs
  obtain ⟨b1, b2, b3, b4⟩ := hn
  simp only at a1 a2 a3 a4 b1 b2 b3 b4
  unfold stair
  simp only
  split_ifs with h1 h2 h3 <;>
    refine ⟨?_, ?_, ?_, ?_⟩ <;> simp only <;> rcases hne2 with h5 | h5 <;> omega

theorem rect_reach (grid : GridV) (sol : Nat → Nat → GridV → Bool)
    (start e : Pos)
    (hH : grid.length < 2 ^ 31) (hW : (grid.headD []).length < 2 ^ 31)
    (hs : inBounds grid start) (he : inBounds grid e)
    (hfree : ∀ p : Pos, inBounds grid p → solAt sol grid p = false)
    (st : AState) (hB : BaseInv manhattan_distance start e st)
    (hS : SetInv grid sol start e st) :
    ∀ (d : Nat) (n : Pos), (manhattan_distance start n).toNat = d →
      inRect start e n → n ≠ start →
      stair start n ∈ st.closedSet ∨
      ∃ m, m ∈ heapPos st ∧
        manhattan_distance n e < manhattan_distance m e := by
  intro d
  induction d using Nat.strong_induction_on with
  | _ d ih =>
    intro n hd hr hne
    have hmd0 : 0 < manhattan_distance start n := by
      rcases Decidable.em (manhattan_distance start n = 0) with h | h
      · exact absurd ((manhattan_eq_zero start n).mp h).symm hne
      · have := manhattan_nonneg start n
        omega
    obtain ⟨hrm, hdm⟩ := stair_inRect start e n hr hne
    have hmlt : manhattan_distance start (stair start n) =
        manhattan_distance start n - 1 := stair_mdist start n hne
    by_cases hmc : stair start n ∈ st.closedSet
    · exact Or.inl hmc
    · by_cases hms : stair start n = start
      · exact Or.inl (by rw [hms]; exact hB.start_closed)
      · have hd2 : (manhattan_distance start (stair start n)).toNat < d := by omega
        rcases ih _ hd2 (stair start n) rfl hrm hms with h | h
        · -- the parent of the stair-parent is closed, so the stair-parent is admitted
          have hmb : inBounds grid (stair start n) := inRect_inBounds grid start e _ hs he hrm
          have hgb : inBounds grid (stair start (stair start n)) :=
            stair_inBounds grid start _ hs hmb hms
          have hmem : stair start n ∈ get_neighbors (stair start (stair start n)).1
              (stair start (stair start n)).2 grid sol := by
            have hpair : (((stair start (stair start n)).1,
                (stair start (stair start n)).2) : Pos) =
                stair start (stair start n) := rfl
            rw [mem_get_neighbors grid sol (stair start (stair start n)).1
              (stair start (stair start n)).2 hH hW (by rw [hpair]; exact hgb)]
            rw [hpair]
            exact ⟨stair_adjStep start (stair start n) hms, hmb, hfree _ hmb⟩
          rcases hS.closed_nbrs _ h _ hmem with h2 | h2
          · exact Or.inr ⟨stair start n, h2, by omega⟩
          · exact absurd h2 hmc
        · obtain ⟨m, hm1, hm2⟩ := h
          exact Or.inr ⟨m, hm1, by omega⟩

theorem stair_closed_at_pop (grid : GridV) (sol : Nat → Nat → GridV → Bool)
    (start e : Pos)
    (hH : grid.length < 2 ^ 31) (hW : (grid.headD []).length < 2 ^ 31)
    (hs : inBounds grid start) (he : inBounds grid e)
    (hfree : ∀ p : Pos, inBounds grid p → solAt sol grid p = false)
    (st : AState) (hB : BaseInv manhattan_distance start e st)
    (hS : SetInv grid sol start e st)
    (k : Int) (current : Pos) (rest : List (Int × Pos))
    (hp : popMax st.heap = some ((k, current), rest))
    (hrect : inRect start e current) (hne : current ≠ start) :
    stair start current ∈ st.closedSet := by
  rcases rect_reach grid sol start e hH hW hs he hfree st hB hS
    (manhattan_distance start current).toNat current rfl hrect hne with h | h
  · exact h
  · exfalso
    obtain ⟨m, hm1, hm2⟩ := h
    obtain ⟨em, hem, hem2⟩ : ∃ em ∈ st.heap, em.2 = m := by
      simp only [heapPos, List.mem_map] at hm1
      obtain ⟨em, h1, h2⟩ := hm1
      exact ⟨em, h1, h2⟩
    have hkm : em.1 = manhattan_distance m e := by
      rw [hB.heap_keys em hem, hem2]
    have hcur_heap : (k, current) ∈ st.heap :=
      (popMax_perm st.heap _ _ hp).symm.subset (List.mem_cons_self _ _)
    have hkk : k = manhattan_distance current e := hB.heap_keys (k, current) hcur_heap
    have hle := popMax_le st.heap _ _ hp em hem
    apply hle
    unfold entryLt
    left
    simp only [hkm, hkk]
    omega

theorem processNeighbor_g_cases (heuristic : Pos → Pos → Int) (start e current : Pos)
    (gc : Int) (s : AState) (m : Pos)
    (hB : BaseInv heuristic start e s)
    (hgcur : s.gScore current = some gc) :
    ∀ n v, s.gScore n = some v →
      ∃ v2, (processNeighbor heuristic e current s m).gScore n = some v2 ∧ v2 ≤ v := by
  intro n v hg
  rcases processNeighbor_cases heuristic e current s m with
    ⟨-, hEq⟩ | ⟨h1, h2, hEq⟩ | ⟨-, -, -, hEq⟩ | ⟨h1, h2, h3, hEq⟩
  · rw [hEq]; exact ⟨v, hg, le_refl v⟩
  · have hEg : (processNeighbor heuristic e current s m).gScore =
        mapInsert s.gScore m ((s.gScore current).getD 0 + 1) := by rw [hEq]
    have hnm : n ≠ m := by
      rintro rfl
      rcases hB.g_admitted n (by rw [hg]; simp) with h | h
      · exact h2 ((hB.open_iff_heap n).mpr h)
      · exact h1 h
    rw [hEg, mapInsert_other _ _ _ _ hnm]
    exact ⟨v, hg, le_refl v⟩
  · rw [hEq]; exact ⟨v, hg, le_refl v⟩
  · have hEg : (processNeighbor heuristic e current s m).gScore =
        mapInsert s.gScore m ((s.gScore current).getD 0 + 1) := by rw [hEq]
    by_cases hnm : n = m
    · subst hnm
      rw [hEg, mapInsert_self]
      refine ⟨(s.gScore current).getD 0 + 1, rfl, ?_⟩
      rw [hg] at h3
      simp only [Option.getD_some] at h3
      omega
    · rw [hEg, mapInsert_other _ _ _ _ hnm]
      exact ⟨v, hg, le_refl v⟩

theorem processNeighbors_g_nonincrease (heuristic : Pos → Pos → Int)
    (start e current : Pos) (gc : Int) :
    ∀ (l : List Pos) (s : AState), BaseInv heuristic start e s →
      current ∈ s.closedSet → s.gScore current = some gc →
      gc + 1 ≤ (s.closedSet.length : Int) →
      (∀ m ∈ l, adjStep current m) →
      ∀ n v, s.gScore n = some v →
        ∃ v2, (processNeighbors heuristic e current s l).gScore n = some v2 ∧ v2 ≤ v := by
  intro l
  induction l with
  | nil => intro s _ _ _ _ _ n v hg; exact ⟨v, hg, le_refl v⟩
  | cons m ms ih =>
    intro s hB hcc hgc hbound hadj n v hg
    rw [show processNeighbors heuristic e current s (m :: ms) =
      processNeighbors heuristic e current (processNeighbor heuristic e current s m) ms from rfl]
    obtain ⟨hB2, hc2, hg2⟩ := baseInv_fold_step heuristic start e current gc s m hB hcc hgc
      hbound (hadj m (List.mem_cons_self _ _))
    obtain ⟨v1, hv1, hle1⟩ :=
      processNeighbor_g_cases heuristic start e current gc s m hB hgc n v hg
    obtain ⟨v2, hv2, hle2⟩ := ih (processNeighbor heuristic e current s m) hB2
      (by rw [hc2]; exact hcc) hg2 (by rw [hc2]; exact hbound)
      (fun q hq => hadj q (List.mem_cons_of_mem _ hq)) n v1 hv1
    exact ⟨v2, hv2, le_trans hle2 hle1⟩

theorem processNeighbors_update (heuristic : Pos → Pos → Int)
    (start e current : Pos) (gc : Int) :
    ∀ (l : List Pos) (s : AState), BaseInv heuristic start e s →
      current ∈ s.closedSet → s.gScore current = some gc →
      gc + 1 ≤ (s.closedSet.length : Int) →
      (∀ m ∈ l, adjStep current m) →
      ∀ n ∈ l, n ∉ s.closedSet →
        ∃ v, (processNeighbors heuristic e current s l).gScore n = some v ∧ v ≤ gc + 1 := by
  intro l
  induction l with
  | nil => intro s _ _ _ _ _ n hn; exact absurd hn (List.not_mem_nil n)
  | cons m ms ih =>
    intro s hB hcc hgc hbound hadj n hn hnc
    rw [show processNeighbors heuristic e current s (m :: ms) =
      processNeighbors heuristic e current (processNeighbor heuristic e current s m) ms from rfl]
    obtain ⟨hB2, hc2, hg2⟩ := baseInv_fold_step heuristic start e current gc s m hB hcc hgc
      hbound (hadj m (List.mem_cons_self _ _))
    rcases List.mem_cons.mp hn with rfl | hn2
    · -- the neighbor's own step admits a value at most gc + 1
      have hstep : ∃ v0, (processNeighbor heuristic e current s n).gScore n = some v0 ∧
          v0 ≤ gc + 1 := by
        rcases processNeighbor_cases heuristic e current s n with
          ⟨h1, hEq⟩ | ⟨h1, h2, hEq⟩ | ⟨h1, h2, h3, hEq⟩ | ⟨h1, h2, h3, hEq⟩
        · exact absurd h1 hnc
        · have hEg : (processNeighbor heuristic e current s n).gScore =
              mapInsert s.gScore n ((s.gScore current).getD 0 + 1) := by rw [hEq]
          rw [hEg, mapInsert_self, hgc]
          simp only [Option.getD_some]
          exact ⟨gc + 1, rfl, le_refl _⟩
        · rw [hEq]
          obtain ⟨vn, hvn⟩ : ∃ vn, s.gScore n = some vn := by
            cases hgv : s.gScore n with
            | none => exact absurd hgv (hB.heap_g n ((hB.open_iff_heap n).mp h2))
            | some w => exact ⟨w, rfl⟩
          refine ⟨vn, hvn, ?_⟩
          rw [hvn, hgc] at h3
          simp only [Option.getD_some] at h3
          omega
        · have hEg : (processNeighbor heuristic e current s n).gScore =
              mapInsert s.gScore n ((s.gScore current).getD 0 + 1) := by rw [hEq]
          rw [hEg, mapInsert_self, hgc]
          simp only [Option.getD_some]
          exact ⟨gc + 1, rfl, le_refl _⟩
      obtain ⟨v0, hv0, hle0⟩ := hstep
      obtain ⟨v, hv, hle⟩ := processNeighbors_g_nonincrease heuristic start e current gc ms
        (processNeighbor heuristic e current s n) hB2 (by rw [hc2]; exact hcc) hg2
        (by rw [hc2]; exact hbound) (fun q hq => hadj q (List.mem_cons_of_mem _ hq)) n v0 hv0
      exact ⟨v, hv, le_trans hle hle0⟩
    · exact ih (processNeighbor heuristic e current s m) hB2 (by rw [hc2]; exact hcc) hg2
        (by rw [hc2]; exact hbound) (fun q hq => hadj q (List.mem_cons_of_mem _ hq)) n hn2
        (by rw [hc2]; exact hnc)

theorem processNeighbors_lb (heuristic : Pos → Pos → Int)
    (start e current : Pos) (gc : Int) :
    ∀ (l : List Pos) (s : AState), BaseInv heuristic start e s →
      current ∈ s.closedSet → s.gScore current = some gc →
      gc + 1 ≤ (s.closedSet.length : Int) →
      (∀ m ∈ l, adjStep current m) →
      (∀ n v, s.gScore n = some v → manhattan_distance start n ≤ v) →
      ∀ n v, (processNeighbors heuristic e current s l).gScore n = some v →
        manhattan_distance start n ≤ v := by
  intro l
  induction l with
  | nil => intro s _ _ _ _ _ hlb n v hg; exact hlb n v hg
  | cons m ms ih =>
    intro s hB hcc hgc hbound hadj hlb
    rw [show processNeighbors heuristic e current s (m :: ms) =
      processNeighbors heuristic e current (processNeighbor heuristic e current s m) ms from rfl]
    obtain ⟨hB2, hc2, hg2⟩ := baseInv_fold_step heuristic start e current gc s m hB hcc hgc
      hbound (hadj m (List.mem_cons_self _ _))
    apply ih (processNeighbor heuristic e current s m) hB2 (by rw [hc2]; exact hcc) hg2
      (by rw [hc2]; exact hbound) (fun q hq => hadj q (List.mem_cons_of_mem _ hq))
    intro n v hg
    have hmc : manhattan_distance start current ≤ gc := hlb current gc hgc
    have hma : manhattan_distance start m ≤ manhattan_distance start current + 1 :=
      adjStep_mdist start current m (hadj m (List.mem_cons_self _ _))
    rcases processNeighbor_cases heuristic e current s m with
      ⟨-, hEq⟩ | ⟨-, -, hEq⟩ | ⟨-, -, -, hEq⟩ | ⟨-, -, -, hEq⟩
    · rw [hEq] at hg; exact hlb n v hg
    · have hEg : (processNeighbor heuristic e current s m).gScore =
          mapInsert s.gScore m ((s.gScore current).getD 0 + 1) := by rw [hEq]
      rw [hEg] at hg
      by_cases hnm : n = m
      · subst hnm
        rw [mapInsert_self, hgc] at hg
        simp only [Option.getD_some] at hg
        obtain rfl := Option.some.inj hg
        omega
      · rw [mapInsert_other _ _ _ _ hnm] at hg
        exact hlb n v hg
    · rw [hEq] at hg; exact hlb n v hg
    · have hEg : (processNeighbor heuristic e current s m).gScore =
          mapInsert s.gScore m ((s.gScore current).getD 0 + 1) := by rw [hEq]
      rw [hEg] at hg
      by_cases hnm : n = m
      · subst hnm
        rw [mapInsert_self, hgc] at hg
        simp only [Option.getD_some] at hg
        obtain rfl := Option.some.inj hg
        omega
      · rw [mapInsert_other _ _ _ _ hnm] at hg
        exact hlb n v hg

theorem rectInv_next (grid : GridV) (sol : Nat → Nat → GridV → Bool)
    (start e : Pos)
    (hH : grid.length < 2 ^ 31) (hW : (grid.headD []).length < 2 ^ 31)
    (hs : inBounds grid start) (he : inBounds grid e)
    (hfree : ∀ p : Pos, inBounds grid p → solAt sol grid p = false)
    (st : AState) (hB : BaseInv manhattan_distance start e st)
    (hS : SetInv grid sol start e st) (hR : RectInv start e st)
    (k : Int) (current : Pos) (rest : List (Int × Pos))
    (hp : popMax st.heap = some ((k, current), rest)) :
    RectInv start e (astarNext grid manhattan_distance sol e current rest st) := by
  have hperm := popMax_perm st.heap _ _ hp
  have hpermPos : (heapPos st).Perm (current :: rest.map Prod.snd) := by
    have h2 := hperm.map Prod.snd
    simpa [heapPos] using h2
  have hcur_heap : current ∈ heapPos st :=
    hpermPos.mem_iff.mpr (List.mem_cons_self _ _)
  have hcur_nc : current ∉ st.closedSet := hB.heap_closed current hcur_heap
  have hcur_ns : current ≠ start := by
    rintro rfl
    exact hcur_nc hB.start_closed
  have hcur_b : inBounds grid current := hS.mem_bounds current (Or.inl hcur_heap)
  have hclosed1 : setInsert st.closedSet current = current :: st.closedSet :=
    setInsert_eq_cons _ _ hcur_nc
  obtain ⟨gc, hgc⟩ : ∃ gc, st.gScore current = some gc := by
    cases hgv : st.gScore current with
    | none => exact absurd hgv (hB.heap_g current hcur_heap)
    | some v => exact ⟨v, rfl⟩
  obtain ⟨hgc0, hgcb⟩ := hB.g_bounds current gc hgc
  have hB1 := baseInv_popped manhattan_distance start e st hB k current rest hp
  have hcurpair : ((current.1, current.2) : Pos) = current := rfl
  have hcc1 : current ∈ setInsert st.closedSet current := by
    rw [hclosed1]
    exact List.mem_cons_self _ _
  have hbound1 : gc + 1 ≤ ((setInsert st.closedSet current).length : Int) := by
    rw [hclosed1]
    simp only [List.length_cons]
    push_cast
    omega
  have hadjl : ∀ m ∈ get_neighbors current.1 current.2 grid sol, adjStep current m := by
    intro m hm
    exact get_neighbors_adj grid sol current.1 current.2 m hm
  have hclosed_fin : (astarNext grid manhattan_distance sol e current rest st).closedSet =
      current :: st.closedSet := by
    unfold astarNext
    rw [processNeighbors_closed_const]
    exact hclosed1
  have hopt : inRect start e current → gc = manhattan_distance start current := by
    intro hrect
    have hsp := stair_closed_at_pop grid sol start e hH hW hs he hfree st hB hS
      k current rest hp hrect hcur_ns
    obtain ⟨v, hv, hvle⟩ := hR.gub current hrect hcur_ns hsp
    have hvgc : v = gc := by
      rw [hgc] at hv
      exact (Option.some.inj hv).symm
    have hlbc := hR.lb current gc hgc
    omega
  refine ⟨?_, ?_, ?_⟩
  · -- lower bound preserved through the fold
    show ∀ n v, (astarNext grid manhattan_distance sol e current rest st).gScore n = some v →
      manhattan_distance start n ≤ v
    unfold astarNext
    exact processNeighbors_lb manhattan_distance start e current gc
      (get_neighbors current.1 current.2 grid sol) _ hB1 hcc1 hgc hbound1 hadjl hR.lb
  · -- closed positions keep closed staircase parents
    intro n hn hrect hns
    rw [hclosed_fin] at hn ⊢
    rcases List.mem_cons.mp hn with rfl | hn2
    · exact List.mem_cons_of_mem _
        (stair_closed_at_pop grid sol start e hH hW hs he hfree st hB hS
          k n rest hp hrect hns)
    · exact List.mem_cons_of_mem _ (hR.closed_stair n hn2 hrect hns)
  · -- the g upper bound
    intro n hrect hns hsp
    rw [hclosed_fin] at hsp
    rcases List.mem_cons.mp hsp with heq | hold
    · -- the staircase parent is the freshly closed current
      have hrectc : inRect start e current := by
        rw [← heq]
        exact (stair_inRect start e n hrect hns).1
      have hgcopt : gc = manhattan_distance start current := hopt hrectc
      have hmd : manhattan_distance start current = manhattan_distance start n - 1 := by
        rw [← heq]
        exact stair_mdist start n hns
      have hnb : inBounds grid n := inRect_inBounds grid start e n hs he hrect
      have hncl : n ∉ st.closedSet := by
        intro h
        have h2 := hR.closed_stair n h hrect hns
        rw [heq] at h2
        exact hcur_nc h2
      have hadjcn : adjStep current n := by
        rw [← heq]
        exact stair_adjStep start n hns
      have hnmem : n ∈ get_neighbors current.1 current.2 grid sol := by
        exact (mem_get_neighbors grid sol current.1 current.2 hH hW
          (by rw [hcurpair]; exact hcur_b) n).mpr
          (by rw [hcurpair]; exact ⟨hadjcn, hnb, hfree n hnb⟩)
      have hn1cl : n ∉ setInsert st.closedSet current := by
        rw [hclosed1, List.mem_cons, not_or]
        exact ⟨adjStep_ne current n hadjcn, hncl⟩
      obtain ⟨v, hv, hle⟩ := processNeighbors_update manhattan_distance start e current gc
        (get_neighbors current.1 current.2 grid sol) _ hB1 hcc1 hgc hbound1 hadjl
        n hnmem hn1cl
      exact ⟨v, hv, by omega⟩
    · -- the staircase parent was closed before the pop
      obtain ⟨v, hv, hle⟩ := hR.gub n hrect hns hold
      obtain ⟨v2, hv2, hle2⟩ := processNeighbors_g_nonincrease manhattan_distance start e
        current gc (get_neighbors current.1 current.2 grid sol) _ hB1 hcc1 hgc hbound1 hadjl
        n v hv
      exact ⟨v2, hv2, le_trans hle2 hle⟩

theorem rectInv_first (grid : GridV) (sol : Nat → Nat → GridV → Bool) (start e : Pos)
    (hH : grid.length < 2 ^ 31) (hW : (grid.headD []).length < 2 ^ 31)
    (hs : inBounds grid start) (he : inBounds grid e)
    (hfree : ∀ p : Pos, inBounds grid p → solAt sol grid p = false) :
    RectInv start e
      (astarNext grid manhattan_distance sol e start [] (astarInit start e manhattan_distance)) := by
  rw [astarInitPopped_eq]
  have hB0 := baseInv_init_lit manhattan_distance start e
  have hg0 : mapInsert (fun _ => none) start (0 : Int) start = some 0 :=
    mapInsert_self _ _ _
  have hcc0 : start ∈ [start] := List.mem_singleton.mpr rfl
  have hbound0 : (0 : Int) + 1 ≤ (([start] : List Pos).length : Int) := by simp
  have hstartpair : ((start.1, start.2) : Pos) = start := rfl
  have hadjl : ∀ m ∈ get_neighbors start.1 start.2 grid sol, adjStep start m := by
    intro m hm
    exact get_neighbors_adj grid sol start.1 start.2 m hm
  have hlb0 : ∀ n v, mapInsert (fun _ => none) start (0 : Int) n = some v →
      manhattan_distance start n ≤ v := by
    intro n v hg
    by_cases h : n = start
    · subst h
      rw [mapInsert_self] at hg
      obtain rfl := Option.some.inj hg
      rw [(manhattan_eq_zero n n).mpr rfl]
    · rw [mapInsert_other _ _ _ _ h] at hg
      exact absurd hg (by simp)
  have hclosed_fin : (processNeighbors manhattan_distance e start
      { closedSet := [start], openSet := [],
        cameFrom := fun _ => none,
        gScore := mapInsert (fun _ => none) start 0,
        fScore := mapInsert (fun _ => none) start (manhattan_distance start e),
        heap := [] }
      (get_neighbors start.1 start.2 grid sol)).closedSet = [start] := by
    rw [processNeighbors_closed_const]
  refine ⟨?_, ?_, ?_⟩
  · exact processNeighbors_lb manhattan_distance start e start 0
      (get_neighbors start.1 start.2 grid sol) _ hB0 hcc0 hg0 hbound0 hadjl hlb0
  · intro n hn hrect hns
    rw [hclosed_fin] at hn
    exact absurd (List.mem_singleton.mp hn) hns
  · intro n hrect hns hsp
    rw [hclosed_fin] at hsp
    have heq : stair start n = start := List.mem_singleton.mp hsp
    have hmdn : manhattan_distance start n = 1 := by
      have h1 := stair_mdist start n hns
      rw [heq, (manhattan_eq_zero start start).mpr rfl] at h1
      omega
    have hadjn : adjStep start n := by
      rw [← heq]
      exact stair_adjStep start n hns
    have hnb : inBounds grid n := inRect_inBounds grid start e n hs he hrect
    have hnmem : n ∈ get_neighbors start.1 start.2 grid sol := by
      exact (mem_get_neighbors grid sol start.1 start.2 hH hW
        (by rw [hstartpair]; exact hs) n).mpr
        (by rw [hstartpair]; exact ⟨hadjn, hnb, hfree n hnb⟩)
    have hn0cl : n ∉ [start] := by
      rw [List.mem_singleton]
      exact hns
    obtain ⟨v, hv, hle⟩ := processNeighbors_update manhattan_distance start e start 0
      (get_neighbors start.1 start.2 grid sol) _ hB0 hcc0 hg0 hbound0 hadjl n hnmem hn0cl
    exact ⟨v, hv, by omega⟩

theorem astarLoop_rect (grid : GridV) (sol : Nat → Nat → GridV → Bool)
    (start e : Pos) (rf : Nat)
    (hH : grid.length < 2 ^ 31) (hW : (grid.headD []).length < 2 ^ 31)
    (hs : inBounds grid start) (he : inBounds grid e) (hse : start ≠ e)
    (hfree : ∀ p : Pos, inBounds grid p → solAt sol grid p = false)
    (hrf : grid.length * (grid.headD []).length ≤ rf) :
    ∀ (fuel : Nat) (st : AState), BaseInv manhattan_distance start e st →
      SetInv grid sol start e st → RectInv start e st →
      grid.length * (grid.headD []).length < st.closedSet.length + fuel →
      ∃ p, astarLoop grid manhattan_distance sol e rf fuel st = some (some p) ∧
        (p.length : Int) = manhattan_distance start e + 1 := by
  intro fuel
  induction fuel with
  | zero =>
    intro st hB hS hR hcard
    have hle := nodup_inBounds_length_le grid st.closedSet hB.closed_nodup
      (fun p hp => hS.mem_bounds p (Or.inr hp))
    omega
  | succ f ih =>
    intro st hB hS hR hcard
    rw [astarLoop]
    cases hp : popMax st.heap with
    | none =>
      exfalso
      have hheap : st.heap = [] := (popMax_eq_none st.heap).mp hp
      have hes : e ≠ start := fun h => hse h.symm
      rcases rect_reach grid sol start e hH hW hs he hfree st hB hS
        (manhattan_distance start e).toNat e rfl (inRect_e start e) hes with h | h
      · obtain ⟨v, hv, -⟩ := hR.gub e (inRect_e start e) hes h
        rcases hB.g_admitted e (by rw [hv]; simp) with h2 | h2
        · rw [heapPos, hheap] at h2
          exact absurd h2 (List.not_mem_nil e)
        · exact hS.e_not_closed h2
      · obtain ⟨m, hm, -⟩ := h
        rw [heapPos, hheap] at hm
        exact absurd hm (List.not_mem_nil m)
    | some pr =>
      obtain ⟨⟨k, current⟩, rest⟩ := pr
      simp only [astarStep, hp]
      by_cases hce : current = e
      · subst hce
        rw [if_pos rfl]
        refine ⟨reconstruct_path rf st.cameFrom current, rfl, ?_⟩
        have hpermPos : (heapPos st).Perm (current :: rest.map Prod.snd) := by
          have h2 := (popMax_perm st.heap _ _ hp).map Prod.snd
          simpa [heapPos] using h2
        have hcur_heap : current ∈ heapPos st :=
          hpermPos.mem_iff.mpr (List.mem_cons_self _ _)
        have hcur_ns : current ≠ start := by
          rintro rfl
          exact hB.heap_closed current hcur_heap hB.start_closed
        obtain ⟨ge, hge⟩ : ∃ ge, st.gScore current = some ge := by
          cases hgv : st.gScore current with
          | none => exact absurd hgv (hB.heap_g current hcur_heap)
          | some v => exact ⟨v, rfl⟩
        have hlbe : manhattan_distance start current ≤ ge := hR.lb current ge hge
        have hsp := stair_closed_at_pop grid sol start current hH hW hs he hfree st hB hS
          k current rest hp (inRect_e start current) hcur_ns
        obtain ⟨v, hv, hvle⟩ := hR.gub current (inRect_e start current) hcur_ns hsp
        have hvge : v = ge := by
          rw [hge] at hv
          exact (Option.some.inj hv).symm
        have hgeD : ge = manhattan_distance start current := by omega
        obtain ⟨hge0, hgeb⟩ := hB.g_bounds current ge hge
        have hge2 : st.gScore current = some ((ge.toNat : Nat) : Int) := by
          rw [hge]
          congr 1
          omega
        obtain ⟨l, hpc, hlen, -, -⟩ := chain_exists manhattan_distance start current st hB
          ge.toNat current hge2
        have hclb := nodup_inBounds_length_le grid st.closedSet hB.closed_nodup
          (fun p hp2 => hS.mem_bounds p (Or.inr hp2))
        have hlf : l.length ≤ rf := by omega
        have hrec : reconstruct_path rf st.cameFrom current = (current :: l).reverse := by
          unfold reconstruct_path
          rw [reconstructAux_chain st.cameFrom l current [current] rf hpc hlf]
          rfl
        rw [hrec]
        simp only [List.length_reverse, List.length_cons, hlen]
        push_cast
        omega
      · rw [if_neg hce]
        obtain ⟨hB2, hcl2⟩ := baseInv_next grid manhattan_distance sol start e st hB
          k current rest hp
        have hS2 := setInv_next grid manhattan_distance sol start e hH hW st hB hS
          k current rest hp hce
        have hR2 := rectInv_next grid sol start e hH hW hs he hfree st hB hS hR
          k current rest hp
        apply ih _ hB2 hS2 hR2
        rw [hcl2]
        simp only [List.length_cons]
        omega

/-- C2: on every rectangular grid with no solid cells, with in-bounds start
and end positions that differ, `astar` run with the Manhattan heuristic
returns a present path whose number of positions is exactly the Manhattan
distance between start and end plus one (an optimal route, endpoints
included). -/
theorem astar_empty_grid_path_length (grid : GridV) (sol : Nat → Nat → GridV → Bool)
    (start e : Pos)
    (hH : grid.length < 2 ^ 31) (hW : (grid.headD []).length < 2 ^ 31)
    (hrect : gridRect grid)
    (hs : inBounds grid start) (he : inBounds grid e) (hse : start ≠ e)
    (hfree : ∀ p : Pos, inBounds grid p → solAt sol grid p = false) :
    ∃ p, astar start e grid manhattan_distance sol = some (some p) ∧
      (p.length : Int) = manhattan_distance start e + 1 := by
  unfold astar astarFuel
  rw [astarLoop]
  rw [show astarStep grid manhattan_distance sol e
      (grid.length * (grid.headD []).length + 1) (astarInit start e manhattan_distance) =
      StepOut.next (astarNext grid manhattan_distance sol e start []
        (astarInit start e manhattan_distance)) from by
    rw [astarStep]
    rw [show popMax (astarInit start e manhattan_distance).heap =
      some ((manhattan_distance start e, start), []) from rfl]
    simp only [if_neg hse]]
  obtain ⟨hB, hcl⟩ := baseInv_first grid manhattan_distance sol start e
  have hS := setInv_first grid manhattan_distance sol start e hH hW hs hse
  have hR := rectInv_first grid sol start e hH hW hs he hfree
  apply astarLoop_rect grid sol start e (grid.length * (grid.headD []).length + 1)
    hH hW hs he hse hfree (by omega)
    (grid.length * (grid.headD []).length) _ hB hS hR
  rw [hcl]
  simp only [List.length_cons, List.length_nil]
  omega

/-- Witness for C2 on the all-free 3×3 grid: from (0,0) to (2,2) the
returned path has 5 positions, the Manhattan distance 4 plus one. -/
theorem astar_empty_grid_path_length_witness :
    ∃ p, astar (0, 0) (2, 2) [[0, 0, 0], [0, 0, 0], [0, 0, 0]] manhattan_distance
      (fun _ _ _ => false) = some (some p) ∧
      (p.length : Int) = manhattan_distance (0, 0) (2, 2) + 1 :=
  astar_empty_grid_path_length [[0, 0, 0], [0, 0, 0], [0, 0, 0]] (fun _ _ _ => false)
    (0, 0) (2, 2) (by decide) (by decide) (by unfold gridRect; decide) (by decide)
    (by decide) (by decide) (fun p _ => rfl)
